import Mathlib

/-!
Shallow embedding of the `ecommerce_backend` repository (Django app with
`products/models.py`, `products/views.py`, `products/serializers.py`,
`accounts/views.py`) and proofs about it.

The database is modelled as a list of rows; each Django model instance is a
record.  Machine-level concerns (SQL, transactions, HTTP parsing) are
abstracted away; the Python control flow of each function is translated
statement by statement.  Fallible operations (`Model.objects.get`,
`get_object_or_404`, foreign-key dereference) are modelled in the `Option`
monad.
-/

/-! ### django.utils.text.slugify

Django's `slugify(value, allow_unicode=False)`:
1. normalises to NFKD and drops non-ASCII bytes (`encode('ascii','ignore')`);
   the model drops non-ASCII characters (the NFKD decomposition step of
   exotic characters is not modelled),
2. lowercases and removes every character not in `[\w\s-]`
   (`re.sub(r'[^\w\s-]', '', value.lower())`),
3. collapses every run of `[-\s]+` to a single `'-'` and strips `'-'`/`'_'`
   from both ends (`re.sub(r'[-\s]+', '-', value).strip('-_')`). -/

def isAsciiChar (c : Char) : Bool := c.toNat < 128

def isWordChar (c : Char) : Bool := c.isAlphanum || c = '_'

def isSpaceChar (c : Char) : Bool :=
  c = ' ' || c = '\t' || c = '\n' || c = '\x0d' || c = '\x0b' || c = '\x0c'

def slugifyKeep (c : Char) : Bool := isWordChar c || isSpaceChar c || c = '-'

/-- Replacement of every run of whitespace/hyphen characters by a single
hyphen (`re.sub(r'[-\s]+', '-', value)`); the flag records whether the
previous character belonged to such a run. -/
def collapseAux : Bool → List Char → List Char
  | _, [] => []
  | inRun, c :: cs =>
    if isSpaceChar c || c = '-' then
      (if inRun then [] else ['-']) ++ collapseAux true cs
    else
      c :: collapseAux false cs

def isStripChar (c : Char) : Bool := c = '-' || c = '_'

/-- Model of Python's `str.strip('-_')`: removes leading and trailing `'-'`
and `'_'` characters. -/
def stripEnds (l : List Char) : List Char :=
  ((l.dropWhile isStripChar).reverse.dropWhile isStripChar).reverse

def slugify (s : String) : String :=
  ⟨stripEnds (collapseAux false
      (((s.data.filter isAsciiChar).map Char.toLower).filter slugifyKeep))⟩

/-! ### Category rows and basic database operations (products/models.py) -/

/-- Database row of the `Category` model.  Only the fields the admin logic
reads or writes are kept (images, SEO text and timestamps are never
branched on). -/
structure Cat where
  id : Nat
  name : String
  slug : String
  parent : Option Nat
  path : String
  is_active : Bool
  show_in_menu : Bool
  sort_order : Nat
deriving DecidableEq

/-- Primary-key lookup, `Category.objects.get(pk=i)` / FK dereference. -/
def dbGet (db : List Cat) (i : Nat) : Option Cat := db.find? (fun c => c.id = i)

/-- Full-row write performed by `super().save()` without `update_fields`:
UPDATE when the primary key exists, INSERT otherwise. -/
def dbPut (db : List Cat) (r : Cat) : List Cat :=
  if db.any (fun c => c.id = r.id) then
    db.map (fun c => if c.id = r.id then r else c)
  else db ++ [r]

/-- Column write performed by `super().save(update_fields=['path'])`. -/
def dbSetPath (db : List Cat) (i : Nat) (p : String) : List Cat :=
  db.map (fun c => if c.id = i then { c with path := p } else c)

/-- Auto-increment primary key assigned on INSERT. -/
def freshId (db : List Cat) : Nat := (db.map (·.id)).foldr max 0 + 1

/-! ### Category._generate_unique_slug -/

/-- Test of the loop guard
`Category.objects.filter(slug=slug, parent=self.parent).exclude(pk=self.pk).exists()`. -/
def slugTaken (db : List Cat) (selfPk : Option Nat) (parent : Option Nat)
    (s : String) : Bool :=
  db.any (fun c => decide (c.slug = s ∧ c.parent = parent ∧ selfPk ≠ some c.id))

/-- Candidate slug `f"{base_slug}-{counter}"`. -/
def candSlug (base : String) (k : Nat) : String := base ++ "-" ++ Nat.repr k

/-- Body of the `while` loop of `_generate_unique_slug`, with explicit fuel.
The fuel `db.length + 1` used below always suffices: the candidates are
pairwise distinct and each taken candidate consumes a distinct row
(see `findSlug_eventually_free`). -/
def findSlugAux (db : List Cat) (selfPk parent : Option Nat) (base : String) :
    Nat → Nat → String
  | 0, k => candSlug base k
  | fuel + 1, k =>
    if slugTaken db selfPk parent (candSlug base k) then
      findSlugAux db selfPk parent base fuel (k + 1)
    else candSlug base k

/-- Model of `Category._generate_unique_slug`: returns the slug the method
leaves on the instance (its only effect).  A non-empty slug is returned
unchanged (`if self.slug: return`). -/
def generateUniqueSlug (db : List Cat) (selfPk parent : Option Nat)
    (slug name : String) : String :=
  if slug ≠ "" then slug
  else
    let base := slugify name
    if slugTaken db selfPk parent base then
      findSlugAux db selfPk parent base (db.length + 1) 1
    else base

/-! ### Category._build_path and Category.save -/

/-- Python's `str.lstrip('/')`. -/
def lstripSlash (s : String) : String := ⟨s.data.dropWhile (fun c => c = '/')⟩

/-- Model of `Category._build_path`:
`f"{self.parent.path}/{self.slug}".lstrip('/')` when a parent is set,
`self.slug` otherwise.  The parent's `path` attribute is passed in as
`parentPath` (`none` when `self.parent is None`). -/
def buildPath (parentPath : Option String) (slug : String) : String :=
  match parentPath with
  | some pp => lstripSlash (pp ++ "/" ++ slug)
  | none => slug

/-- Dereference of `self.parent` followed by reading its `path`:
fails (`DoesNotExist`) when the FK dangles. -/
def parentPathIn (db : List Cat) (p? : Option Nat) : Option (Option String) :=
  match p? with
  | some p => (dbGet db p).map (fun pc => some pc.path)
  | none => some none

/-- Children of node `i`: rows whose `parent` FK is `i`
(`related_name='children'`).  MPTT orders siblings by
`order_insertion_by = ['sort_order', 'name']`; sibling order is irrelevant
to every property proved here, so row order stands in for it. -/
def childrenIds (db : List Cat) (i : Nat) : List Nat :=
  (db.filter (fun c => c.parent = some i)).map (·.id)

/-- Depth-first preorder traversal underlying MPTT's `get_descendants()`
(descendants listed in tree order: every node before its own
descendants), with explicit fuel bounding the recursion depth. -/
def descendantsAux (db : List Cat) : Nat → Nat → List Nat
  | 0, _ => []
  | fuel + 1, i => (childrenIds db i).flatMap (fun c => c :: descendantsAux db fuel c)

/-- Model of `self.get_descendants()` evaluated on `db`; fuel `db.length`
covers every chain of distinct nodes. -/
def getDescendants (db : List Cat) (i : Nat) : List Nat :=
  descendantsAux db db.length i

/-- Net effect on the database of one iteration of the descendant loop in
`Category.save`: `child.path = child._build_path()` followed by
`child.save(update_fields=['path'])`.  The child instance was fetched by the
`get_descendants()` queryset evaluated at loop start (`snap`); its lazy
`parent` FK and the queries of the nested `save` read the current database
`d`.  The nested overridden `save` re-runs `_generate_unique_slug` (a no-op
whenever the stored slug is non-empty, the case of every theorem below) and
then writes exactly the `path` column, so the net effect is the single
column write with the slug the nested save computed. -/
def childPathSave (snap : List Cat) (d : List Cat) (i : Nat) :
    Option (List Cat) := do
  let c ← dbGet snap i
  let pp ← parentPathIn d c.parent
  let slug2 := generateUniqueSlug d (some i) c.parent c.slug c.name
  pure (dbSetPath d i (buildPath pp slug2))

/-- In-memory `Category` instance: `pk` is `None` before the first save. -/
structure CatObj where
  pk : Option Nat
  name : String
  slug : String
  parent : Option Nat
  path : String
  is_active : Bool
  show_in_menu : Bool
  sort_order : Nat
deriving DecidableEq

/-- Instance freshly loaded from a row. -/
def loadCat (r : Cat) : CatObj :=
  ⟨some r.id, r.name, r.slug, r.parent, r.path, r.is_active, r.show_in_menu,
    r.sort_order⟩

/-- Model of `Category.save` (models.py lines 147-169).  Returns the new
database and the saved primary key; `none` models an escaped
`DoesNotExist`.  Steps, in source order: fetch `old_parent` from the stored
row; `_generate_unique_slug`; full-row `super().save()`;
`new_path = self._build_path()`; conditional `path` column write; when the
parent changed, rebuild the `path` of every descendant in tree order. -/
def categorySave (db : List Cat) (c : CatObj) : Option (List Cat × Nat) := do
  let is_new := c.pk.isNone
  let old_parent ← match c.pk with
    | some i => (dbGet db i).map (·.parent)
    | none => some none
  let slug := generateUniqueSlug db c.pk c.parent c.slug c.name
  let pk := match c.pk with
    | some i => i
    | none => freshId db
  let row : Cat :=
    ⟨pk, c.name, slug, c.parent, c.path, c.is_active, c.show_in_menu, c.sort_order⟩
  let db1 := dbPut db row
  let pp ← parentPathIn db1 c.parent
  let new_path := buildPath pp slug
  if is_new = true ∨ c.path ≠ new_path ∨ old_parent ≠ c.parent then
    let db2 := dbSetPath db1 pk new_path
    if old_parent ≠ c.parent then do
      let db3 ← (getDescendants db2 pk).foldlM (childPathSave db2) db2
      pure (db3, pk)
    else pure (db2, pk)
  else pure (db1, pk)

/-! ### Brand model (products/models.py lines 218-285) -/

/-- Database row of the `Brand` model (fields the admin logic reads). -/
structure BrandR where
  id : Nat
  name : String
  slug : String
  country : String
  is_active : Bool
  is_featured : Bool
  priority : Nat
deriving DecidableEq

def brandGet (db : List BrandR) (i : Nat) : Option BrandR :=
  db.find? (fun b => b.id = i)

def brandPut (db : List BrandR) (r : BrandR) : List BrandR :=
  if db.any (fun b => b.id = r.id) then
    db.map (fun b => if b.id = r.id then r else b)
  else db ++ [r]

def brandFreshId (db : List BrandR) : Nat := (db.map (·.id)).foldr max 0 + 1

/-- Loop guard `Brand.objects.filter(slug=slug).exclude(pk=self.pk).exists()`:
unlike categories, uniqueness is checked among all brands. -/
def brandSlugTaken (db : List BrandR) (selfPk : Option Nat) (s : String) : Bool :=
  db.any (fun b => decide (b.slug = s ∧ selfPk ≠ some b.id))

/-- Fueled body of the `while` loop in `Brand.save`. -/
def brandFindSlugAux (db : List BrandR) (selfPk : Option Nat) (base : String) :
    Nat → Nat → String
  | 0, k => candSlug base k
  | fuel + 1, k =>
    if brandSlugTaken db selfPk (candSlug base k) then
      brandFindSlugAux db selfPk base fuel (k + 1)
    else candSlug base k

/-- Slug `Brand.save` leaves on the instance: unchanged when non-empty,
otherwise `slugify(name)` uniquified over all brands. -/
def brandGenSlug (db : List BrandR) (selfPk : Option Nat)
    (slug name : String) : String :=
  if slug ≠ "" then slug
  else
    let base := slugify name
    if brandSlugTaken db selfPk base then
      brandFindSlugAux db selfPk base (db.length + 1) 1
    else base

/-- In-memory `Brand` instance. -/
structure BrandObj where
  pk : Option Nat
  name : String
  slug : String
  country : String
  is_active : Bool
  is_featured : Bool
  priority : Nat
deriving DecidableEq

def loadBrand (r : BrandR) : BrandObj :=
  ⟨some r.id, r.name, r.slug, r.country, r.is_active, r.is_featured, r.priority⟩

/-- Model of `Brand.save` (lines 274-285): generate the slug when empty,
then a full-row `super().save()`. -/
def brandSave (db : List BrandR) (b : BrandObj) : List BrandR × Nat :=
  let slug := brandGenSlug db b.pk b.slug b.name
  let pk := match b.pk with
    | some i => i
    | none => brandFreshId db
  (brandPut db ⟨pk, b.name, slug, b.country, b.is_active, b.is_featured, b.priority⟩, pk)

/-! ### View layer (products/views.py)

Requests carry an optional object id: `get_post_id` returns `None` both when
the POST key is absent and when its value is falsy, so a request is modelled
by `Option Nat`.  `get_object_or_404` failure is the `notFound` response. -/

/-- Product rows do not exist in this codebase (the `Product` model is
commented out); `has_products` guards on `hasattr(obj, "product_set")`,
which is `False` as shipped.  The guard is modelled by `hasProductModel`
and the would-be FK rows by `products`, so that both the shipped state
(`hasProductModel = false`) and the future-proofed state are covered. -/
structure ProductLink where
  category : Option Nat
  brand : Option Nat
deriving DecidableEq

/-- Store the view layer acts on. -/
structure Store where
  cats : List Cat
  brands : List BrandR
  products : List ProductLink
  hasProductModel : Bool
deriving DecidableEq

/-- Model of `has_products` for a category
(`hasattr(obj, "product_set") and obj.product_set.exists()`). -/
def hasProductsCat (s : Store) (i : Nat) : Bool :=
  s.hasProductModel && s.products.any (fun p => p.category = some i)

/-- Model of `has_products` for a brand. -/
def hasProductsBrand (s : Store) (i : Nat) : Bool :=
  s.hasProductModel && s.products.any (fun p => p.brand = some i)

/-- Model of `toggle_field(obj, field)` on the in-memory object: replaces
the named boolean attribute by its negation (`setattr(obj, field,
not getattr(obj, field))`).  The accompanying
`obj.save(update_fields=[field])` is modelled at each endpoint. -/
inductive CatBoolField | is_active | show_in_menu
deriving DecidableEq

def getCatField (c : Cat) : CatBoolField → Bool
  | .is_active => c.is_active
  | .show_in_menu => c.show_in_menu

def setCatField (c : Cat) : CatBoolField → Bool → Cat
  | .is_active, v => { c with is_active := v }
  | .show_in_menu, v => { c with show_in_menu := v }

def toggleFieldCat (c : Cat) (f : CatBoolField) : Cat :=
  setCatField c f (!getCatField c f)

inductive BrandBoolField | is_active | is_featured
deriving DecidableEq

def getBrandField (b : BrandR) : BrandBoolField → Bool
  | .is_active => b.is_active
  | .is_featured => b.is_featured

def setBrandField (b : BrandR) : BrandBoolField → Bool → BrandR
  | .is_active, v => { b with is_active := v }
  | .is_featured, v => { b with is_featured := v }

def toggleFieldBrand (b : BrandR) (f : BrandBoolField) : BrandR :=
  setBrandField b f (!getBrandField b f)

/-- Column write of `super().save(update_fields=[field])` for a category. -/
def dbSetCatField (db : List Cat) (i : Nat) (f : CatBoolField) (v : Bool) :
    List Cat :=
  db.map (fun c => if c.id = i then setCatField c f v else c)

/-- Column write of `super().save(update_fields=[field])` for a brand. -/
def dbSetBrandField (db : List BrandR) (i : Nat) (f : BrandBoolField) (v : Bool) :
    List BrandR :=
  db.map (fun b => if b.id = i then setBrandField b f v else b)

/-- Net database effect of `obj.save(update_fields=[field])` on a `Category`
instance freshly loaded from row `i` whose attribute `f` was just set to
`v`.  The overridden `Category.save` still runs: `old_parent` equals the
instance's unchanged `parent`, `_generate_unique_slug` recomputes the slug
in memory when the stored slug is empty, `super().save(update_fields=
[field])` writes exactly that column, and the final `path` check rewrites
the `path` column when the stored path disagrees with `_build_path()`
(never on a path-consistent store).  `old_parent == self.parent`, so the
descendant loop is unreachable. -/
def categorySaveField (db : List Cat) (i : Nat) (f : CatBoolField) (v : Bool) :
    Option (List Cat) := do
  let c ← dbGet db i
  let c1 := setCatField c f v
  let slug2 := generateUniqueSlug db (some i) c1.parent c1.slug c1.name
  let db1 := dbSetCatField db i f v
  let pp ← parentPathIn db1 c1.parent
  let np := buildPath pp slug2
  if c1.path ≠ np then pure (dbSetPath db1 i np) else pure db1

/-- Net database effect of `obj.save(update_fields=[field])` on a `Brand`
instance loaded from row `i` with attribute `f` set to `v`: `Brand.save`
may regenerate an empty slug in memory, but `update_fields=[field]`
persists only the named column. -/
def brandSaveField (db : List BrandR) (i : Nat) (f : BrandBoolField) (v : Bool) :
    Option (List BrandR) := do
  let _ ← brandGet db i
  pure (dbSetBrandField db i f v)

/-- Responses the AJAX endpoints produce. -/
inductive Resp
  | badRequest (msg : String)
  | notFound
  | jsonSuccess (extra : Option (String × Bool))
  | jsonFailure (msg : String)
deriving DecidableEq

/-- Model of `toggle_category_status` (views.py lines 80-90). -/
def toggleCategoryStatus (s : Store) (req : Option Nat) : Store × Resp :=
  match req with
  | none => (s, .badRequest "Missing category id")
  | some i =>
    match dbGet s.cats i with
    | none => (s, .notFound)
    | some c =>
      let c1 := toggleFieldCat c .is_active
      match categorySaveField s.cats i .is_active c1.is_active with
      | none => (s, .notFound)
      | some cats1 =>
        ({ s with cats := cats1 }, .jsonSuccess (some ("is_active", c1.is_active)))

/-- Model of `toggle_category_menu` (views.py lines 93-103). -/
def toggleCategoryMenu (s : Store) (req : Option Nat) : Store × Resp :=
  match req with
  | none => (s, .badRequest "Missing category id")
  | some i =>
    match dbGet s.cats i with
    | none => (s, .notFound)
    | some c =>
      let c1 := toggleFieldCat c .show_in_menu
      match categorySaveField s.cats i .show_in_menu c1.show_in_menu with
      | none => (s, .notFound)
      | some cats1 =>
        ({ s with cats := cats1 }, .jsonSuccess (some ("show_in_menu", c1.show_in_menu)))

/-- Model of `category.children.exists()`. -/
def hasChildren (db : List Cat) (i : Nat) : Bool :=
  db.any (fun c => c.parent = some i)

/-- Model of `soft_delete_category` (views.py lines 106-124). -/
def softDeleteCategory (s : Store) (req : Option Nat) : Store × Resp :=
  match req with
  | none => (s, .badRequest "Missing category id")
  | some i =>
    match dbGet s.cats i with
    | none => (s, .notFound)
    | some c =>
      if hasChildren s.cats c.id then
        (s, .jsonFailure "Category has subcategories")
      else if hasProductsCat s c.id then
        (s, .jsonFailure "Products are linked")
      else
        match categorySaveField s.cats i .is_active false with
        | none => (s, .notFound)
        | some cats1 => ({ s with cats := cats1 }, .jsonSuccess none)

/-- Model of `toggle_brand_status` (views.py lines 130-140). -/
def toggleBrandStatus (s : Store) (req : Option Nat) : Store × Resp :=
  match req with
  | none => (s, .badRequest "Missing brand id")
  | some i =>
    match brandGet s.brands i with
    | none => (s, .notFound)
    | some b =>
      let b1 := toggleFieldBrand b .is_active
      match brandSaveField s.brands i .is_active b1.is_active with
      | none => (s, .notFound)
      | some brands1 =>
        ({ s with brands := brands1 }, .jsonSuccess (some ("is_active", b1.is_active)))

/-- Model of `toggle_brand_featured` (views.py lines 143-153). -/
def toggleBrandFeatured (s : Store) (req : Option Nat) : Store × Resp :=
  match req with
  | none => (s, .badRequest "Missing brand id")
  | some i =>
    match brandGet s.brands i with
    | none => (s, .notFound)
    | some b =>
      let b1 := toggleFieldBrand b .is_featured
      match brandSaveField s.brands i .is_featured b1.is_featured with
      | none => (s, .notFound)
      | some brands1 =>
        ({ s with brands := brands1 }, .jsonSuccess (some ("is_featured", b1.is_featured)))

/-- Model of `soft_delete_brand` (views.py lines 156-171). -/
def softDeleteBrand (s : Store) (req : Option Nat) : Store × Resp :=
  match req with
  | none => (s, .badRequest "Missing brand id")
  | some i =>
    match brandGet s.brands i with
    | none => (s, .notFound)
    | some b =>
      if hasProductsBrand s b.id then
        (s, .jsonFailure "Products are linked")
      else
        match brandSaveField s.brands i .is_active false with
        | none => (s, .notFound)
        | some brands1 => ({ s with brands := brands1 }, .jsonSuccess none)

/-! ### CategoryListView.get_queryset (views.py lines 183-200) -/

/-- Query parameters of the category list view; `none` is an absent
parameter, `some ""` a present-but-empty one. -/
structure ListParams where
  search : Option String
  is_active : Option String
  show_in_menu : Option String

/-- Model of the `name__icontains=search` lookup: case-insensitive
substring test. -/
def icontains (name search : String) : Bool :=
  decide (search.toLower.data <:+: name.toLower.data)

/-- Python truthiness of `request.GET.get("search")`: skipped when absent
or empty. -/
def searchApplies (p : Option String) : Bool :=
  match p with
  | none => false
  | some v => v ≠ ""

/-- Model of `CategoryListView.get_queryset`: optional name search, the
`is_active` filter (active-only when the parameter is absent, by value when
it is "0" or "1", no filter otherwise), the analogous `show_in_menu`
filter, then `order_by("path")`. -/
def categoryQueryset (db : List Cat) (p : ListParams) : List Cat :=
  let qs := db
  let qs := if searchApplies p.search then
      qs.filter (fun (c : Cat) => icontains c.name (p.search.getD ""))
    else qs
  let qs : List Cat := match p.is_active with
    | none => qs.filter (fun (c : Cat) => c.is_active = true)
    | some v => if v = "0" ∨ v = "1" then
        qs.filter (fun (c : Cat) => c.is_active = decide (v = "1")) else qs
  let qs : List Cat := match p.show_in_menu with
    | none => qs
    | some v => if v = "0" ∨ v = "1" then
        qs.filter (fun (c : Cat) => c.show_in_menu = decide (v = "1")) else qs
  qs.mergeSort (fun a b => a.path ≤ b.path)

/-! ### Permanent deletion (CategoryDeleteView.delete, BrandDeleteView.delete) -/

/-- Responses of the `DeleteView` subclasses: an error message followed by a
redirect, or deletion followed by the success redirect. -/
inductive DelResp
  | notFound
  | errorRedirect (msg : String)
  | deleted
deriving DecidableEq

/-- Model of `CategoryDeleteView.delete` (views.py lines 248-268): the
object is fetched by its unique `path`; an active object or one with
children or linked products is not removed. -/
def categoryDelete (s : Store) (pathParam : String) : Store × DelResp :=
  match s.cats.find? (fun c => c.path = pathParam) with
  | none => (s, .notFound)
  | some c =>
    if c.is_active = true then
      (s, .errorRedirect "Deactivate category before permanent deletion.")
    else if hasChildren s.cats c.id || hasProductsCat s c.id then
      (s, .errorRedirect "Cannot delete category with dependencies.")
    else
      ({ s with cats := s.cats.filter (fun x => x.id ≠ c.id) }, .deleted)

/-- Model of `BrandDeleteView.delete` (views.py lines 326-343): fetched by
primary key (`<int:pk>` URL), removed only when inactive with no linked
products. -/
def brandDelete (s : Store) (pk : Nat) : Store × DelResp :=
  match brandGet s.brands pk with
  | none => (s, .notFound)
  | some b =>
    if b.is_active = true then
      (s, .errorRedirect "Deactivate brand before permanent deletion.")
    else if hasProductsBrand s b.id then
      (s, .errorRedirect "Cannot delete brand with linked products.")
    else
      ({ s with brands := s.brands.filter (fun x => x.id ≠ b.id) }, .deleted)

/-! ### RegisterView.create (accounts/views.py lines 11-27)

The repository ships `accounts/views.py` but not `accounts/serializers.py`
or `accounts/models.py`; the serializer the view calls is therefore
modelled from the spec. -/

/-- Created user record (the fields the view echoes back). -/
structure User where
  email : String
  username : String
  first_name : String
deriving DecidableEq

/-- Modelled from the spec: `RegisterSerializer` of the absent
`accounts/serializers.py` ("user registration/authentication
(token-based)").  The spec fixes no validation rules, so the serializer is
abstract: `valid` is its `is_valid` method on the current user table and
the input, and `mk` its `save` method producing the new user.  The view's
control flow (`is_valid(raise_exception=True)` before `save`) is what is
modelled concretely. -/
structure RegSerializer (I : Type) where
  valid : List User → I → Bool
  build : I → User

/-- Response of the register endpoint. -/
inductive RegResp
  | created (email username first_name : String) (message : String) (status : Nat)
  | validationError
deriving DecidableEq

/-- Model of `RegisterView.create`: `serializer.is_valid(raise_exception=
True)` raises (no user saved) on invalid input; otherwise `serializer.save()`
stores the user and a 201 response echoes its email, username and
first_name with the success message. -/
def registerCreate {I : Type} (ser : RegSerializer I) (users : List User)
    (inp : I) : List User × RegResp :=
  if ser.valid users inp then
    let u := ser.build inp
    (users ++ [u], .created u.email u.username u.first_name "User created successfully" 201)
  else
    (users, .validationError)

/-- Identifiers of the rows. -/
def dbIds (db : List Cat) : List Nat := db.map (·.id)

/-- Uniqueness of primary keys: the state every real table satisfies. -/
def idsNodup (db : List Cat) : Prop := (dbIds db).Nodup

/-! ### Stores that differ only in the `path` column -/

/-- Relation between two stores holding the same rows up to the `path`
column: every write the descendant-rebuild loop performs has this shape. -/
def pathsOnly (a b : List Cat) : Prop :=
  ∃ F : Cat → String, b = a.map (fun c => { c with path := F c })

/-! ### Ancestor chains, descendants and tree well-formedness -/

/-- Iterated parent: `upa db n d` is the ancestor `n` levels above `d`
(`none` when the chain leaves the table). -/
def upa (db : List Cat) : Nat → Nat → Option Nat
  | 0, d => some d
  | n + 1, d => (upa db n d).bind (fun m => (dbGet db m).bind (·.parent))

/-- Descendant at a given depth: `DescN db i d n` holds when `d` is `n`
levels below `i` in the parent forest of `db`. -/
inductive DescN (db : List Cat) : Nat → Nat → Nat → Prop
  | base {i : Nat} {c : Cat} : c ∈ db → c.parent = some i → DescN db i c.id 1
  | step {i d n : Nat} {c : Cat} :
      c ∈ db → c.parent = some i → DescN db c.id d n → DescN db i d (n + 1)

/-- Proper descendant. -/
def Desc (db : List Cat) (i d : Nat) : Prop := ∃ n, DescN db i d n

/-- Self or proper descendant (a node's subtree). -/
def Desc0 (db : List Cat) (i d : Nat) : Prop := d = i ∨ Desc db i d

/-- Well-formed forest: every parent FK resolves to a row and strictly
decreases the rank, so parent chains are acyclic.  Any acyclic parent
assignment admits such a rank (topological position). -/
def WFRank (db : List Cat) (rank : Nat → Nat) : Prop :=
  ∀ c ∈ db, ∀ p, c.parent = some p → (∃ pc ∈ db, pc.id = p) ∧ rank p < rank c.id

/-! ### From Category.save to the engine -/

/-- Parent reassignment of one row, used to state what the tree looks like
after a reparenting save (statement-level helper). -/
def reparent (db : List Cat) (i : Nat) (p : Option Nat) : List Cat :=
  db.map (fun c => if c.id = i then { c with parent := p } else c)

/-- Consistency of the materialized path of node `x`: its stored `path`
equals `_build_path()` of its stored row, i.e. the parent's stored path
joined with `'/'` and the node's slug (leading slashes stripped), or the
slug alone at a root. -/
def pathConsistentAt (db : List Cat) (x : Nat) : Prop :=
  ∃ row pp, dbGet db x = some row ∧ parentPathIn db row.parent = some pp ∧
    row.path = buildPath pp row.slug

/-- Row written by `super().save()` inside `Category.save`: the instance's
fields with the generated slug and the assigned primary key. -/
def savedRow (db : List Cat) (c : CatObj) : Cat :=
  ⟨(match c.pk with | some i => i | none => freshId db), c.name,
    generateUniqueSlug db c.pk c.parent c.slug c.name, c.parent, c.path,
    c.is_active, c.show_in_menu, c.sort_order⟩

/-! ### Decimal representation: injectivity of `Nat.repr`

Python's `str(counter)` is modelled by `Nat.repr`; the uniquification
argument needs pairwise-distinct candidate slugs, hence injectivity of the
decimal printer. -/

/-- Structural decimal digits of a natural number (most significant
first), equal to core's fueled `Nat.toDigitsCore`. -/
def decDigits (n : Nat) : List Char :=
  if h : n < 10 then [Nat.digitChar n]
  else decDigits (n / 10) ++ [Nat.digitChar (n % 10)]
decreasing_by
  exact Nat.div_lt_self (by omega) (by omega)

/-- Conditions under which a row passes all the filters of
`CategoryListView.get_queryset` with the given parameters. -/
def matchesParams (p : ListParams) (c : Cat) : Prop :=
  (searchApplies p.search = true → icontains c.name (p.search.getD "") = true) ∧
  (match p.is_active with
    | none => c.is_active = true
    | some v => (v = "0" ∨ v = "1") → c.is_active = decide (v = "1")) ∧
  (match p.show_in_menu with
    | none => True
    | some v => (v = "0" ∨ v = "1") → c.show_in_menu = decide (v = "1"))

/-! ## Proof infrastructure -/

/-! ### Database access lemmas -/

theorem dbGet_id {db : List Cat} {j : Nat} {c : Cat} (h : dbGet db j = some c) :
    c.id = j := by
  have := List.find?_some h
  simpa using this

theorem dbGet_mem {db : List Cat} {j : Nat} {c : Cat} (h : dbGet db j = some c) :
    c ∈ db := List.mem_of_find?_eq_some h

theorem mem_dbGet {db : List Cat} {c : Cat} (hnd : idsNodup db) (hc : c ∈ db) :
    dbGet db c.id = some c := by
  induction db with
  | nil => cases hc
  | cons a l ih =>
    rcases List.mem_cons.1 hc with rfl | hc'
    · simp [dbGet]
    · have hnd' : idsNodup l := by
        have := List.nodup_cons.1 hnd
        exact this.2
      have hne : a.id ≠ c.id := by
        intro h
        have hmem := (List.nodup_cons.1 hnd).1
        exact hmem (by show a.id ∈ _; rw [h]; exact List.mem_map_of_mem (·.id) hc')
      have hrec : dbGet l c.id = some c := ih hnd' hc'
      unfold dbGet at hrec ⊢
      rw [List.find?_cons_of_neg, hrec]
      simp [hne]

theorem dbGet_map_preserveId (db : List Cat) (g : Cat → Cat)
    (hg : ∀ c, (g c).id = c.id) (j : Nat) :
    dbGet (db.map g) j = (dbGet db j).map g := by
  unfold dbGet
  have hp : ((fun c => decide (c.id = j)) ∘ g) = (fun c : Cat => decide (c.id = j)) := by
    funext c
    simp [Function.comp, hg]
  rw [List.find?_map, hp]

theorem dbGet_dbSetPath (db : List Cat) (i : Nat) (p : String) (j : Nat) :
    dbGet (dbSetPath db i p) j =
      (dbGet db j).map (fun c => if c.id = i then { c with path := p } else c) := by
  unfold dbSetPath
  exact dbGet_map_preserveId db _ (fun c => by by_cases h : c.id = i <;> simp [h]) j

theorem dbGet_dbSetPath_self {db : List Cat} {i : Nat} {c : Cat} (p : String)
    (h : dbGet db i = some c) :
    dbGet (dbSetPath db i p) i = some { c with path := p } := by
  rw [dbGet_dbSetPath, h]
  simp [dbGet_id h]

theorem dbGet_dbSetPath_ne {db : List Cat} {i j : Nat} (p : String) (h : j ≠ i) :
    dbGet (dbSetPath db i p) j = dbGet db j := by
  rw [dbGet_dbSetPath]
  cases hc : dbGet db j with
  | none => rfl
  | some c =>
    have : c.id = j := dbGet_id hc
    simp [this, h]

theorem dbGet_dbPut_self (db : List Cat) (r : Cat) :
    dbGet (dbPut db r) r.id = some r := by
  unfold dbPut
  split
  · rename_i hany
    rw [dbGet_map_preserveId db _ (fun c => by by_cases h : c.id = r.id <;> simp [h])]
    rcases List.any_eq_true.1 hany with ⟨c, hc, hcid⟩
    have hcid' : c.id = r.id := by simpa using hcid
    cases hfind : dbGet db r.id with
    | none =>
      exfalso
      have := List.find?_eq_none.1 hfind c hc
      simp [hcid'] at this
    | some c₀ =>
      have : c₀.id = r.id := dbGet_id hfind
      simp [this]
  · unfold dbGet
    rw [List.find?_append]
    rename_i hany
    have hnone : db.find? (fun c => decide (c.id = r.id)) = none := by
      rw [List.find?_eq_none]
      intro x hx
      simp only [decide_eq_true_eq]
      intro hxe
      have : db.any (fun c => decide (c.id = r.id)) = true :=
        List.any_eq_true.2 ⟨x, hx, by simp [hxe]⟩
      exact absurd this (by simpa using hany)
    rw [hnone]
    simp [List.find?]

theorem dbGet_dbPut_ne {db : List Cat} {j : Nat} (r : Cat) (h : j ≠ r.id) :
    dbGet (dbPut db r) j = dbGet db j := by
  unfold dbPut
  split
  · rw [dbGet_map_preserveId db _ (fun c => by by_cases hc : c.id = r.id <;> simp [hc])]
    cases hc : dbGet db j with
    | none => rfl
    | some c =>
      have : c.id = j := dbGet_id hc
      simp [this, h]
  · unfold dbGet
    rw [List.find?_append]
    have : List.find? (fun c => decide (c.id = j)) [r] = none := by
      simp [List.find?, Ne.symm h]
    rw [this]
    cases db.find? (fun c => decide (c.id = j)) <;> rfl

theorem dbPut_length_mem (db : List Cat) (r : Cat)
    (h : db.any (fun c => c.id = r.id) = true) :
    (dbPut db r).length = db.length := by
  unfold dbPut
  rw [if_pos h]
  exact List.length_map _ _

theorem pathsOnly_refl (a : List Cat) : pathsOnly a a := by
  refine ⟨(·.path), ?_⟩
  simp

theorem pathsOnly_setPath {a b : List Cat} (h : pathsOnly a b) (i : Nat) (p : String) :
    pathsOnly a (dbSetPath b i p) := by
  obtain ⟨F, rfl⟩ := h
  refine ⟨fun c => if c.id = i then p else F c, ?_⟩
  unfold dbSetPath
  rw [List.map_map]
  apply List.map_congr_left
  intro c _
  by_cases hc : c.id = i <;> simp [hc]

theorem pathsOnly_dbGet {a b : List Cat} (h : pathsOnly a b) (j : Nat) :
    ∃ F : Cat → String,
      dbGet b j = (dbGet a j).map (fun c => { c with path := F c }) := by
  obtain ⟨F, rfl⟩ := h
  exact ⟨F, dbGet_map_preserveId a (fun c => { c with path := F c }) (fun c => rfl) j⟩

theorem pathsOnly_length {a b : List Cat} (h : pathsOnly a b) :
    b.length = a.length := by
  obtain ⟨F, rfl⟩ := h
  exact List.length_map _ _

theorem pathsOnly_dbIds {a b : List Cat} (h : pathsOnly a b) : dbIds b = dbIds a := by
  obtain ⟨F, rfl⟩ := h
  unfold dbIds
  rw [List.map_map]
  rfl

theorem pathsOnly_idsNodup {a b : List Cat} (h : pathsOnly a b) (hnd : idsNodup a) :
    idsNodup b := by
  unfold idsNodup
  rw [pathsOnly_dbIds h]
  exact hnd

theorem pathsOnly_childrenIds {a b : List Cat} (h : pathsOnly a b) (i : Nat) :
    childrenIds b i = childrenIds a i := by
  obtain ⟨F, rfl⟩ := h
  unfold childrenIds
  rw [List.filter_map, List.map_map]
  rfl

theorem pathsOnly_descendantsAux {a b : List Cat} (h : pathsOnly a b)
    (fuel i : Nat) : descendantsAux b fuel i = descendantsAux a fuel i := by
  induction fuel generalizing i with
  | zero => rfl
  | succ f ih =>
    unfold descendantsAux
    rw [pathsOnly_childrenIds h]
    congr 1
    funext c
    rw [ih]

theorem pathsOnly_slug_mem {a b : List Cat} (h : pathsOnly a b)
    (hs : ∀ c ∈ a, c.slug ≠ "") : ∀ c ∈ b, c.slug ≠ "" := by
  obtain ⟨F, rfl⟩ := h
  intro c hc
  rcases List.mem_map.1 hc with ⟨c₀, hc₀, rfl⟩
  exact hs c₀ hc₀

theorem pathsOnly_trans {a b c : List Cat} (h₁ : pathsOnly a b)
    (h₂ : pathsOnly b c) : pathsOnly a c := by
  obtain ⟨F, rfl⟩ := h₁
  obtain ⟨G, rfl⟩ := h₂
  refine ⟨fun x => G { x with path := F x }, ?_⟩
  rw [List.map_map]
  rfl

theorem descN_pos {db : List Cat} {i d n : Nat} (h : DescN db i d n) : 1 ≤ n := by
  cases h <;> omega

theorem upa_succ_bottom (db : List Cat) (n d : Nat) :
    upa db (n + 1) d = ((dbGet db d).bind (·.parent)).bind (upa db n) := by
  induction n with
  | zero =>
    show (upa db 0 d).bind _ = _
    cases h : (dbGet db d).bind (·.parent) <;> simp [upa, h]
  | succ n ih =>
    show (upa db (n + 1) d).bind _ = _
    rw [ih]
    cases h : (dbGet db d).bind (·.parent) with
    | none => simp
    | some q => simp [upa]

theorem upa_add (db : List Cat) (a b d : Nat) :
    upa db (a + b) d = (upa db b d).bind (upa db a) := by
  induction a with
  | zero =>
    simp only [Nat.zero_add]
    cases h : upa db b d <;> simp [upa, h]
  | succ a ih =>
    have : a + 1 + b = (a + b) + 1 := by omega
    rw [this]
    show (upa db (a + b) d).bind _ = _
    rw [ih]
    cases h : upa db b d with
    | none => simp
    | some q => simp [upa]

theorem descN_upa {db : List Cat} (hnd : idsNodup db) {j d n : Nat}
    (h : DescN db j d n) : upa db n d = some j := by
  induction h with
  | base hc hp =>
    simp only [upa, Option.some_bind]
    simp [mem_dbGet hnd hc, hp]
  | step hc hp _ ih =>
    simp only [upa]
    rw [ih]
    simp [mem_dbGet hnd hc, hp]

theorem upa_descN {db : List Cat} (hnd : idsNodup db) {j d n : Nat}
    (h : upa db n d = some j) (hn : 1 ≤ n) : DescN db j d n := by
  induction n generalizing j d with
  | zero => omega
  | succ n ih =>
    rcases Nat.eq_zero_or_pos n with rfl | hpos
    · have h1 : (upa db 0 d).bind (fun m => (dbGet db m).bind (·.parent)) = some j := h
      simp only [upa, Option.some_bind] at h1
      cases hrow : dbGet db d with
      | none => rw [hrow] at h1; simp at h1
      | some row =>
        rw [hrow] at h1
        simp only [Option.some_bind] at h1
        have : row.id = d := dbGet_id hrow
        subst this
        exact DescN.base (dbGet_mem hrow) h1
    · have h1 : (upa db n d).bind (fun m => (dbGet db m).bind (·.parent)) = some j := h
      cases hm : upa db n d with
      | none => rw [hm] at h1; simp at h1
      | some m =>
        rw [hm] at h1
        simp only [Option.some_bind] at h1
        cases hrow : dbGet db m with
        | none => rw [hrow] at h1; simp at h1
        | some row =>
          rw [hrow] at h1
          simp only [Option.some_bind] at h1
          have hdm : DescN db m d n := ih hm hpos
          have : row.id = m := dbGet_id hrow
          exact DescN.step (dbGet_mem hrow) h1 (this ▸ hdm)

theorem upa_rank {db : List Cat} {rank : Nat → Nat} (hwf : WFRank db rank)
    {n d j : Nat} (h : upa db n d = some j) : rank j + n ≤ rank d := by
  induction n generalizing j with
  | zero =>
    have hjd : d = j := by simpa [upa] using h
    subst hjd
    omega
  | succ n ih =>
    have h1 : (upa db n d).bind (fun m => (dbGet db m).bind (·.parent)) = some j := h
    cases hm : upa db n d with
    | none => rw [hm] at h1; simp at h1
    | some m =>
      rw [hm] at h1
      simp only [Option.some_bind] at h1
      cases hrow : dbGet db m with
      | none => rw [hrow] at h1; simp at h1
      | some row =>
        rw [hrow] at h1
        simp only [Option.some_bind] at h1
        have hmem := dbGet_mem hrow
        have hid := dbGet_id hrow
        have hlt := (hwf row hmem j h1).2
        rw [hid] at hlt
        have hle := ih hm
        omega

theorem descN_rank {db : List Cat} {rank : Nat → Nat} (hnd : idsNodup db)
    (hwf : WFRank db rank) {j d n : Nat} (h : DescN db j d n) :
    rank j + n ≤ rank d :=
  upa_rank hwf (descN_upa hnd h)

theorem not_desc_self {db : List Cat} {rank : Nat → Nat} (hnd : idsNodup db)
    (hwf : WFRank db rank) (i : Nat) : ¬ Desc db i i := by
  rintro ⟨n, h⟩
  have := descN_rank hnd hwf h
  have := descN_pos h
  omega

theorem desc0_upa {db : List Cat} (hnd : idsNodup db) {c x : Nat} :
    Desc0 db c x ↔ ∃ n, upa db n x = some c := by
  constructor
  · rintro (rfl | ⟨n, h⟩)
    · exact ⟨0, rfl⟩
    · exact ⟨n, descN_upa hnd h⟩
  · rintro ⟨n, h⟩
    rcases Nat.eq_zero_or_pos n with rfl | hpos
    · left
      exact Option.some.inj h
    · right
      exact ⟨n, upa_descN hnd h hpos⟩

theorem mem_childrenIds {db : List Cat} {j c : Nat} :
    c ∈ childrenIds db j ↔ ∃ row ∈ db, row.id = c ∧ row.parent = some j := by
  unfold childrenIds
  constructor
  · intro h
    rcases List.mem_map.1 h with ⟨row, hrow, rfl⟩
    rcases List.mem_filter.1 hrow with ⟨hmem, hp⟩
    exact ⟨row, hmem, rfl, by simpa using hp⟩
  · rintro ⟨row, hmem, rfl, hp⟩
    exact List.mem_map_of_mem _ (List.mem_filter.2 ⟨hmem, by simpa using hp⟩)

theorem descN_mem_descendantsAux {db : List Cat} {j d n : Nat}
    (h : DescN db j d n) : ∀ fuel, n ≤ fuel → d ∈ descendantsAux db fuel j := by
  induction h with
  | base hc hp =>
    rename_i i c
    intro fuel hn
    cases fuel with
    | zero => omega
    | succ f =>
      unfold descendantsAux
      exact List.mem_flatMap.2 ⟨c.id, mem_childrenIds.2 ⟨c, hc, rfl, hp⟩,
        List.mem_cons_self _ _⟩
  | step hc hp _ ih =>
    rename_i i d' n' c hsub
    intro fuel hn
    cases fuel with
    | zero => omega
    | succ f =>
      unfold descendantsAux
      exact List.mem_flatMap.2 ⟨c.id, mem_childrenIds.2 ⟨c, hc, rfl, hp⟩,
        List.mem_cons_of_mem _ (ih f (by omega))⟩

theorem mem_descendantsAux_descN {db : List Cat} :
    ∀ {fuel j d : Nat}, d ∈ descendantsAux db fuel j → ∃ n, DescN db j d n := by
  intro fuel
  induction fuel with
  | zero => intro j d h; cases h
  | succ f ih =>
    intro j d h
    unfold descendantsAux at h
    rcases List.mem_flatMap.1 h with ⟨c, hc, hd⟩
    rcases mem_childrenIds.1 hc with ⟨row, hrow, rfl, hp⟩
    rcases List.mem_cons.1 hd with rfl | hd'
    · exact ⟨1, DescN.base hrow hp⟩
    · rcases ih hd' with ⟨n, hn⟩
      exact ⟨n + 1, DescN.step hrow hp hn⟩

theorem desc_of_desc0_child {db : List Cat} {j c x : Nat} (r : Cat)
    (hr : r ∈ db) (hrid : r.id = c) (hrp : r.parent = some j)
    (h : Desc0 db c x) : Desc db j x := by
  rcases h with rfl | ⟨n, hn⟩
  · exact ⟨1, by rw [← hrid]; exact DescN.base hr hrp⟩
  · exact ⟨n + 1, DescN.step hr hrp (by rw [hrid]; exact hn)⟩

theorem sibling_subtrees_disjoint {db : List Cat} {rank : Nat → Nat}
    (hnd : idsNodup db) (hwf : WFRank db rank) {j c₁ c₂ : Nat}
    (r₁ r₂ : Cat) (h₁ : r₁ ∈ db) (hid₁ : r₁.id = c₁) (hp₁ : r₁.parent = some j)
    (h₂ : r₂ ∈ db) (hid₂ : r₂.id = c₂) (hp₂ : r₂.parent = some j)
    (hne : c₁ ≠ c₂) (x : Nat) :
    Desc0 db c₁ x → Desc0 db c₂ x → False := by
  intro hx₁ hx₂
  rcases (desc0_upa hnd).1 hx₁ with ⟨n₁, hu₁⟩
  rcases (desc0_upa hnd).1 hx₂ with ⟨n₂, hu₂⟩
  have key : ∀ (a b : Nat) (ca cb : Cat), ca ∈ db → cb ∈ db →
      ca.parent = some j → cb.parent = some j →
      upa db a x = some ca.id → upa db b x = some cb.id → a < b → False := by
    intro a b ca cb hca hcb hpa hpb hua hub hab
    have hsplit : upa db ((b - a) + a) x = (upa db a x).bind (upa db (b - a)) :=
      upa_add db (b - a) a x
    rw [show (b - a) + a = b from by omega] at hsplit
    rw [hub, hua] at hsplit
    simp only [Option.some_bind] at hsplit
    have hba : b - a = (b - a - 1) + 1 := by omega
    rw [hba, upa_succ_bottom] at hsplit
    rw [mem_dbGet hnd hca] at hsplit
    simp only [Option.some_bind, hpa] at hsplit
    have hrk : rank cb.id + (b - a - 1) ≤ rank j := upa_rank hwf hsplit.symm
    have hjb := (hwf cb hcb j hpb).2
    omega
  rcases Nat.lt_trichotomy n₁ n₂ with hlt | heq | hgt
  · exact key n₁ n₂ r₁ r₂ h₁ h₂ hp₁ hp₂ (hid₁ ▸ hu₁) (hid₂ ▸ hu₂) hlt
  · subst heq
    rw [hu₁] at hu₂
    exact hne (Option.some.inj hu₂)
  · exact key n₂ n₁ r₂ r₁ h₂ h₁ hp₂ hp₁ (hid₂ ▸ hu₂) (hid₁ ▸ hu₁) hgt

theorem desc_parent_desc0 {db : List Cat} (hnd : idsNodup db) {c x : Nat}
    (h : Desc db c x) :
    ∃ row q, dbGet db x = some row ∧ row.parent = some q ∧ Desc0 db c q := by
  rcases h with ⟨n, hn⟩
  have hpos := descN_pos hn
  have hu := descN_upa hnd hn
  rw [show n = (n - 1) + 1 from by omega, upa_succ_bottom] at hu
  cases hrow : dbGet db x with
  | none => rw [hrow] at hu; simp at hu
  | some row =>
    rw [hrow] at hu
    simp only [Option.some_bind] at hu
    cases hq : row.parent with
    | none => rw [hq] at hu; simp at hu
    | some q =>
      rw [hq] at hu
      simp only [Option.some_bind] at hu
      exact ⟨row, q, rfl, hq, (desc0_upa hnd).2 ⟨n - 1, hu⟩⟩

theorem descN_map {db : List Cat} (g : Cat → Cat)
    (hgi : ∀ c, (g c).id = c.id) (hgp : ∀ c, (g c).parent = c.parent)
    {j d n : Nat} (h : DescN db j d n) : DescN (db.map g) j d n := by
  induction h with
  | base hc hp =>
    have h1 := @DescN.base (db.map g) _ _ (List.mem_map_of_mem g hc)
      (by rw [hgp]; exact hp)
    rwa [hgi] at h1
  | step hc hp _ ih =>
    exact DescN.step (List.mem_map_of_mem g hc) (by rw [hgp]; exact hp)
      (by rw [hgi]; exact ih)

theorem descN_unmap {db : List Cat} (g : Cat → Cat)
    (hgi : ∀ c, (g c).id = c.id) (hgp : ∀ c, (g c).parent = c.parent)
    {j d n : Nat} (h : DescN (db.map g) j d n) : DescN db j d n := by
  induction h with
  | base hc hp =>
    rcases List.mem_map.1 hc with ⟨c₀, hc₀, rfl⟩
    rw [hgi c₀]
    exact DescN.base hc₀ (by rw [← hgp]; exact hp)
  | step hc hp _ ih =>
    rcases List.mem_map.1 hc with ⟨c₀, hc₀, rfl⟩
    rw [hgi c₀] at ih
    exact DescN.step hc₀ (by rw [← hgp]; exact hp) ih

theorem pathsOnly_descN_iff {a b : List Cat} (h : pathsOnly a b)
    {j d n : Nat} : DescN b j d n ↔ DescN a j d n := by
  obtain ⟨F, rfl⟩ := h
  constructor
  · exact descN_unmap (fun c => { c with path := F c }) (fun c => rfl) (fun c => rfl)
  · exact descN_map (fun c => { c with path := F c }) (fun c => rfl) (fun c => rfl)

/-! ### The descendant-rebuild engine -/

theorem generateUniqueSlug_nonempty (db : List Cat) (selfPk parent : Option Nat)
    {slug : String} (h : slug ≠ "") (name : String) :
    generateUniqueSlug db selfPk parent slug name = slug := by
  simp [generateUniqueSlug, h]

theorem childrenIds_nodup {db : List Cat} (hnd : idsNodup db) (j : Nat) :
    (childrenIds db j).Nodup := by
  unfold childrenIds
  have hsub : List.Sublist
      ((db.filter (fun c => decide (c.parent = some j))).map (·.id))
      (db.map (·.id)) := (List.filter_sublist db).map _
  exact hnd.sublist hsub

theorem desc_child_decomp {db : List Cat} (hnd : idsNodup db) {j x : Nat}
    (h : Desc db j x) :
    ∃ c rowc, rowc ∈ db ∧ rowc.id = c ∧ rowc.parent = some j ∧ Desc0 db c x := by
  rcases h with ⟨n, hn⟩
  have hpos := descN_pos hn
  have hu := descN_upa hnd hn
  have hdecomp : upa db ((n - 1) + 1) x = (upa db (n - 1) x).bind
      (fun m => (dbGet db m).bind (·.parent)) := rfl
  rw [show n = (n - 1) + 1 from by omega] at hu
  rw [hdecomp] at hu
  cases hm : upa db (n - 1) x with
  | none => rw [hm] at hu; simp at hu
  | some m =>
    rw [hm] at hu
    simp only [Option.some_bind] at hu
    cases hrow : dbGet db m with
    | none => rw [hrow] at hu; simp at hu
    | some rowm =>
      rw [hrow] at hu
      simp only [Option.some_bind] at hu
      exact ⟨m, rowm, dbGet_mem hrow, dbGet_id hrow, hu,
        (desc0_upa hnd).2 ⟨n - 1, hm⟩⟩

theorem desc0_rank {db : List Cat} {rank : Nat → Nat} (hnd : idsNodup db)
    (hwf : WFRank db rank) {c x : Nat} (h : Desc0 db c x) :
    rank c ≤ rank x := by
  rcases h with rfl | ⟨n, hn⟩
  · exact le_refl _
  · have := descN_rank hnd hwf hn
    omega

theorem child_not_anc {db : List Cat} {rank : Nat → Nat} (hnd : idsNodup db)
    (hwf : WFRank db rank) {j c : Nat} {rowc : Cat} (hr : rowc ∈ db)
    (hrid : rowc.id = c) (hrp : rowc.parent = some j) : ¬ Desc0 db c j := by
  have hjc : rank j < rank c := by
    have := (hwf rowc hr j hrp).2
    rw [hrid] at this
    exact this
  intro h
  have := desc0_rank hnd hwf h
  omega

theorem childPathSave_spec {snap d : List Cat} (hnd : idsNodup snap)
    (hslug : ∀ c ∈ snap, c.slug ≠ "") {x q : Nat} {rowx : Cat}
    (hx : rowx ∈ snap) (hxid : rowx.id = x) (hxp : rowx.parent = some q)
    {qrow : Cat} (hq : dbGet d q = some qrow) :
    childPathSave snap d x =
      some (dbSetPath d x (lstripSlash (qrow.path ++ "/" ++ rowx.slug))) := by
  have hget : dbGet snap x = some rowx := by
    rw [← hxid]
    exact mem_dbGet hnd hx
  unfold childPathSave
  rw [hget]
  show (Option.some rowx).bind _ = _
  rw [Option.some_bind]
  show (parentPathIn d rowx.parent).bind _ = _
  rw [hxp]
  show ((dbGet d q).map (fun pc => some pc.path)).bind _ = _
  rw [hq, Option.map_some', Option.some_bind]
  show pure (dbSetPath d x (buildPath (some qrow.path)
      (generateUniqueSlug d (some x) (some q) rowx.slug rowx.name))) = _
  rw [generateUniqueSlug_nonempty d (some x) (some q) (hslug rowx hx) rowx.name]
  rfl

theorem processChildren (snap : List Cat) (rank : Nat → Nat)
    (hnd : idsNodup snap) (hwf : WFRank snap rank)
    (hslug : ∀ c ∈ snap, c.slug ≠ "") (f : Nat) (j : Nat)
    (ihf : ∀ (j' : Nat) (d0 : List Cat), pathsOnly snap d0 →
      (∀ x n, DescN snap j' x n → n ≤ f) →
      ∃ d1, (descendantsAux snap f j').foldlM (childPathSave snap) d0 = some d1 ∧
        pathsOnly snap d1 ∧
        (∀ x, ¬ Desc snap j' x → dbGet d1 x = dbGet d0 x) ∧
        (∀ x, Desc snap j' x →
          ∃ row q qrow, dbGet d1 x = some row ∧ row.parent = some q ∧
            dbGet d1 q = some qrow ∧
            row.path = lstripSlash (qrow.path ++ "/" ++ row.slug) ∧
            Desc0 snap j' q)) :
    ∀ (cs : List Nat), cs.Nodup →
      (∀ c ∈ cs, ∃ rowc, rowc ∈ snap ∧ rowc.id = c ∧ rowc.parent = some j) →
      (∀ x n, DescN snap j x n → n ≤ f + 1) →
      ∀ d0, pathsOnly snap d0 →
      ∃ d1, (cs.flatMap (fun c => c :: descendantsAux snap f c)).foldlM
          (childPathSave snap) d0 = some d1 ∧
        pathsOnly snap d1 ∧
        (∀ x, (∀ c ∈ cs, ¬ Desc0 snap c x) → dbGet d1 x = dbGet d0 x) ∧
        (∀ c ∈ cs, ∀ x, Desc0 snap c x →
          ∃ row q qrow, dbGet d1 x = some row ∧ row.parent = some q ∧
            dbGet d1 q = some qrow ∧
            row.path = lstripSlash (qrow.path ++ "/" ++ row.slug) ∧
            (Desc0 snap c q ∨ q = j)) := by
  intro cs
  induction cs with
  | nil =>
    intro _ _ _ d0 hpo
    refine ⟨d0, by simp, hpo, fun x _ => rfl, ?_⟩
    intro c hc
    exact absurd hc (List.not_mem_nil c)
  | cons c cs' ihcs =>
    intro hnodup hcs hdeep d0 hpo
    obtain ⟨hc_notin, hnodup'⟩ := List.nodup_cons.1 hnodup
    obtain ⟨rowc, hrowc, hrcid, hrcp⟩ := hcs c (List.mem_cons_self c cs')
    have hrankjc : rank j < rank c := by
      have h := (hwf rowc hrowc j hrcp).2
      rwa [hrcid] at h
    have hjne : j ≠ c := by
      intro h
      rw [h] at hrankjc
      omega
    obtain ⟨pc, hpc, hpcid⟩ := (hwf rowc hrowc j hrcp).1
    obtain ⟨F0, hF0⟩ := pathsOnly_dbGet hpo j
    have hsnapj : dbGet snap j = some pc := by
      rw [← hpcid]
      exact mem_dbGet hnd hpc
    have hqd0 : dbGet d0 j = some { pc with path := F0 pc } := by
      rw [hF0, hsnapj]
      rfl
    have hstep := childPathSave_spec hnd hslug hrowc hrcid hrcp hqd0
    have hpoA : pathsOnly snap
        (dbSetPath d0 c (lstripSlash (({ pc with path := F0 pc } : Cat).path
          ++ "/" ++ rowc.slug))) := pathsOnly_setPath hpo c _
    have hdeepc : ∀ x n, DescN snap c x n → n ≤ f := by
      intro x n hxn
      have hstepN : DescN snap j x (n + 1) :=
        DescN.step hrowc hrcp (by rw [hrcid]; exact hxn)
      have := hdeep x (n + 1) hstepN
      omega
    obtain ⟨dB, hfoldB, hpoB, hframeB, hconsB⟩ := ihf c _ hpoA hdeepc
    have hcs' : ∀ c' ∈ cs', ∃ rowc', rowc' ∈ snap ∧ rowc'.id = c' ∧
        rowc'.parent = some j := fun c' hc' => hcs c' (List.mem_cons_of_mem c hc')
    obtain ⟨d1, hfold1, hpo1, hframe1, hcons1⟩ := ihcs hnodup' hcs' hdeep dB hpoB
    -- disjointness of the segment of `c` from the segments of `cs'`
    have hdisj : ∀ c'' ∈ cs', ∀ x, Desc0 snap c x → ¬ Desc0 snap c'' x := by
      intro c'' hc'' x hx hx''
      obtain ⟨rowc'', hrowc'', hrcid'', hrcp''⟩ := hcs' c'' hc''
      have hne : c ≠ c'' := by
        intro h
        exact hc_notin (h ▸ hc'')
      exact sibling_subtrees_disjoint hnd hwf rowc rowc'' hrowc hrcid hrcp
        hrowc'' hrcid'' hrcp'' hne x hx hx''
    have hjnotseg : ∀ c'' ∈ cs', ¬ Desc0 snap c'' j := by
      intro c'' hc''
      obtain ⟨rowc'', hrowc'', hrcid'', hrcp''⟩ := hcs' c'' hc''
      exact child_not_anc hnd hwf hrowc'' hrcid'' hrcp''
    refine ⟨d1, ?_, hpo1, ?_, ?_⟩
    · rw [List.flatMap_cons]
      have hshape : (c :: descendantsAux snap f c) ++
          cs'.flatMap (fun c => c :: descendantsAux snap f c) =
          c :: (descendantsAux snap f c ++
            cs'.flatMap (fun c => c :: descendantsAux snap f c)) := rfl
      rw [hshape, List.foldlM_cons, hstep]
      show (descendantsAux snap f c ++ _).foldlM (childPathSave snap) _ = _
      rw [List.foldlM_append, hfoldB]
      show (cs'.flatMap _).foldlM (childPathSave snap) dB = _
      exact hfold1
    · intro x hx
      have hxc : ¬ Desc0 snap c x := hx c (List.mem_cons_self c cs')
      have hx' : ∀ c' ∈ cs', ¬ Desc0 snap c' x :=
        fun c' hc' => hx c' (List.mem_cons_of_mem c hc')
      rw [hframe1 x hx', hframeB x (fun hdx => hxc (Or.inr hdx)),
        dbGet_dbSetPath_ne _ (fun hxeq => hxc (Or.inl hxeq))]
    · intro c' hc' x hx
      rcases List.mem_cons.1 hc' with rfl | hc'cs
      · -- the subtree of `c` itself; establish consistency in dB, transport to d1
        have hjstableB : dbGet dB j = some { pc with path := F0 pc } := by
          rw [hframeB j (fun hdj =>
            child_not_anc hnd hwf hrowc hrcid hrcp (Or.inr hdj)),
            dbGet_dbSetPath_ne _ hjne]
          exact hqd0
        have htrans : ∀ y, Desc0 snap c' y → dbGet d1 y = dbGet dB y := by
          intro y hy
          exact hframe1 y (fun c'' hc'' => hdisj c'' hc'' y hy)
        have hjtrans : dbGet d1 j = dbGet dB j := by
          exact hframe1 j (fun c'' hc'' => hjnotseg c'' hc'')
        rcases hx with rfl | hdx
        · -- x = c'
          obtain ⟨F1, hF1⟩ := pathsOnly_dbGet hpo x
          have hsnapc : dbGet snap x = some rowc := by
            rw [← hrcid]
            exact mem_dbGet hnd hrowc
          have hd0c : dbGet d0 x = some { rowc with path := F1 rowc } := by
            rw [hF1, hsnapc]
            rfl
          have hdBc : dbGet dB x =
              some { rowc with path := lstripSlash (F0 pc ++ "/" ++ rowc.slug) } := by
            rw [hframeB x (not_desc_self hnd hwf x)]
            have hset := dbGet_dbSetPath_self
              (lstripSlash (F0 pc ++ "/" ++ rowc.slug)) hd0c
            exact hset
          refine ⟨{ rowc with path := lstripSlash (F0 pc ++ "/" ++ rowc.slug) },
            j, { pc with path := F0 pc }, ?_, hrcp, ?_, rfl, Or.inr rfl⟩
          · rw [htrans x (Or.inl rfl)]
            exact hdBc
          · rw [hjtrans]
            exact hjstableB
        · -- x a proper descendant of c'
          obtain ⟨row, q, qrow, hrowx, hrq, hqrow, hpath, hq0⟩ := hconsB x hdx
          refine ⟨row, q, qrow, ?_, hrq, ?_, hpath, Or.inl hq0⟩
          · rw [htrans x (Or.inr hdx)]
            exact hrowx
          · rw [htrans q hq0]
            exact hqrow
      · exact hcons1 c' hc'cs x hx

theorem processSubtree (snap : List Cat) (rank : Nat → Nat)
    (hnd : idsNodup snap) (hwf : WFRank snap rank)
    (hslug : ∀ c ∈ snap, c.slug ≠ "") :
    ∀ (fuel : Nat) (j : Nat) (d0 : List Cat), pathsOnly snap d0 →
      (∀ x n, DescN snap j x n → n ≤ fuel) →
      ∃ d1, (descendantsAux snap fuel j).foldlM (childPathSave snap) d0 = some d1 ∧
        pathsOnly snap d1 ∧
        (∀ x, ¬ Desc snap j x → dbGet d1 x = dbGet d0 x) ∧
        (∀ x, Desc snap j x →
          ∃ row q qrow, dbGet d1 x = some row ∧ row.parent = some q ∧
            dbGet d1 q = some qrow ∧
            row.path = lstripSlash (qrow.path ++ "/" ++ row.slug) ∧
            Desc0 snap j q) := by
  intro fuel
  induction fuel with
  | zero =>
    intro j d0 hpo hdeep
    refine ⟨d0, by simp [descendantsAux], hpo, fun x _ => rfl, ?_⟩
    rintro x ⟨n, hn⟩
    have := descN_pos hn
    have := hdeep x n hn
    omega
  | succ f ihf =>
    intro j d0 hpo hdeep
    obtain ⟨d1, hfold, hpo1, hframe, hcons⟩ :=
      processChildren snap rank hnd hwf hslug f j ihf (childrenIds snap j)
        (childrenIds_nodup hnd j)
        (fun c hc => by
          rcases mem_childrenIds.1 hc with ⟨row, hrow, hrid, hrp⟩
          exact ⟨row, hrow, hrid, hrp⟩)
        hdeep d0 hpo
    refine ⟨d1, ?_, hpo1, ?_, ?_⟩
    · show (descendantsAux snap (f + 1) j).foldlM _ _ = _
      unfold descendantsAux
      exact hfold
    · intro x hx
      refine hframe x ?_
      intro c hc hd0
      rcases mem_childrenIds.1 hc with ⟨row, hrow, hrid, hrp⟩
      exact hx (desc_of_desc0_child row hrow hrid hrp hd0)
    · intro x hx
      obtain ⟨c, rowc, hrowc, hrcid, hrcp, hd0⟩ := desc_child_decomp hnd hx
      obtain ⟨row, q, qrow, h1, h2, h3, h4, h5⟩ :=
        hcons c (mem_childrenIds.2 ⟨rowc, hrowc, hrcid, hrcp⟩) x hd0
      refine ⟨row, q, qrow, h1, h2, h3, h4, ?_⟩
      rcases h5 with hq | rfl
      · exact Or.inr (desc_of_desc0_child rowc hrowc hrcid hrcp hq)
      · exact Or.inl rfl

theorem dbIds_dbPut_mem {db : List Cat} {r : Cat}
    (h : db.any (fun c => c.id = r.id) = true) :
    dbIds (dbPut db r) = dbIds db := by
  unfold dbPut
  rw [if_pos h]
  unfold dbIds
  rw [List.map_map]
  apply List.map_congr_left
  intro c _
  by_cases hc : c.id = r.id <;> simp [hc]

theorem dbIds_dbSetPath (db : List Cat) (i : Nat) (p : String) :
    dbIds (dbSetPath db i p) = dbIds db := by
  unfold dbSetPath dbIds
  rw [List.map_map]
  apply List.map_congr_left
  intro c _
  by_cases hc : c.id = i <;> simp [hc]

theorem dbIds_reparent (db : List Cat) (i : Nat) (p : Option Nat) :
    dbIds (reparent db i p) = dbIds db := by
  unfold reparent dbIds
  rw [List.map_map]
  apply List.map_congr_left
  intro c _
  by_cases hc : c.id = i <;> simp [hc]

theorem pathsOnly_WFRank {a b : List Cat} {rank : Nat → Nat}
    (h : pathsOnly a b) (hwf : WFRank a rank) : WFRank b rank := by
  obtain ⟨F, rfl⟩ := h
  intro c hc p hp
  rcases List.mem_map.1 hc with ⟨c₀, hc₀, rfl⟩
  have hp₀ : c₀.parent = some p := hp
  obtain ⟨⟨pc, hpc, hpcid⟩, hrank⟩ := hwf c₀ hc₀ p hp₀
  exact ⟨⟨{ pc with path := F pc }, List.mem_map_of_mem _ hpc, hpcid⟩, hrank⟩

theorem descN_target {db : List Cat} {j d n : Nat} (h : DescN db j d n) :
    ∃ c ∈ db, c.id = d := by
  induction h with
  | base hc _ => exact ⟨_, hc, rfl⟩
  | step _ _ _ ih => exact ih

theorem mem_eq_of_dbGet {db : List Cat} {i : Nat} {r c : Cat}
    (hnd : idsNodup db) (hr : dbGet db i = some r) (hc : c ∈ db)
    (hcid : c.id = i) : c = r := by
  have := mem_dbGet hnd hc
  rw [hcid, hr] at this
  exact (Option.some.inj this).symm

theorem dbPut_eq_reparent {db : List Cat} {i : Nat} {r : Cat}
    (hnd : idsNodup db) (hr : dbGet db i = some r) (newp : Option Nat) :
    dbPut db { r with parent := newp } = reparent db i newp := by
  have hri : r.id = i := dbGet_id hr
  have hany : db.any (fun c => c.id = ({ r with parent := newp } : Cat).id) = true := by
    refine List.any_eq_true.2 ⟨r, dbGet_mem hr, ?_⟩
    simp
  unfold dbPut reparent
  rw [if_pos hany]
  apply List.map_congr_left
  intro c hc
  by_cases hcid : c.id = i
  · have hcr : c = r := mem_eq_of_dbGet hnd hr hc hcid
    subst hcr
    simp [hri, hcid]
  · have : ¬ c.id = ({ r with parent := newp } : Cat).id := by
      show ¬ c.id = r.id
      rw [hri]
      exact hcid
    simp [this, hcid]

theorem slug_mem_reparent {db : List Cat} (i : Nat) (p : Option Nat)
    (hs : ∀ c ∈ db, c.slug ≠ "") : ∀ c ∈ reparent db i p, c.slug ≠ "" := by
  intro c hc
  rcases List.mem_map.1 hc with ⟨c₀, hc₀, rfl⟩
  by_cases h : c₀.id = i <;> simp [h] <;> exact hs c₀ hc₀

/-- Evaluation shape of `categorySave` on an instance with a set primary
key: definitional unfolding of the `do` block. -/
theorem categorySave_some (db : List Cat) (i : Nat) (nm sl : String)
    (par : Option Nat) (pa : String) (ia sm : Bool) (so : Nat) :
    categorySave db ⟨some i, nm, sl, par, pa, ia, sm, so⟩ =
      ((dbGet db i).map (·.parent)).bind (fun old_parent =>
        (parentPathIn (dbPut db ⟨i, nm,
            generateUniqueSlug db (some i) par sl nm, par, pa, ia, sm, so⟩)
            par).bind (fun pp =>
          if false = true ∨
              pa ≠ buildPath pp (generateUniqueSlug db (some i) par sl nm) ∨
              old_parent ≠ par then
            if old_parent ≠ par then
              ((getDescendants (dbSetPath (dbPut db ⟨i, nm,
                  generateUniqueSlug db (some i) par sl nm, par, pa, ia, sm, so⟩)
                  i (buildPath pp (generateUniqueSlug db (some i) par sl nm)))
                  i).foldlM
                (childPathSave (dbSetPath (dbPut db ⟨i, nm,
                  generateUniqueSlug db (some i) par sl nm, par, pa, ia, sm, so⟩)
                  i (buildPath pp (generateUniqueSlug db (some i) par sl nm))))
                (dbSetPath (dbPut db ⟨i, nm,
                  generateUniqueSlug db (some i) par sl nm, par, pa, ia, sm, so⟩)
                  i (buildPath pp (generateUniqueSlug db (some i) par sl nm)))).bind
                (fun db3 => pure (db3, i))
            else pure (dbSetPath (dbPut db ⟨i, nm,
              generateUniqueSlug db (some i) par sl nm, par, pa, ia, sm, so⟩)
              i (buildPath pp (generateUniqueSlug db (some i) par sl nm)), i)
          else pure (dbPut db ⟨i, nm,
            generateUniqueSlug db (some i) par sl nm, par, pa, ia, sm, so⟩, i))) :=
  rfl

theorem categorySave_reparent (db : List Cat) (rank : Nat → Nat) (r : Cat)
    (newp : Option Nat)
    (hnd : idsNodup db)
    (hslugs : ∀ c ∈ db, c.slug ≠ "")
    (hr : dbGet db r.id = some r)
    (hchanged : newp ≠ r.parent)
    (hwf : WFRank (reparent db r.id newp) rank)
    (hbound : ∀ c ∈ reparent db r.id newp, rank c.id ≤ db.length) :
    ∃ db', categorySave db { loadCat r with parent := newp } = some (db', r.id) ∧
      pathConsistentAt db' r.id ∧
      ∀ d, Desc db' r.id d → pathConsistentAt db' d := by
  have hrslug : r.slug ≠ "" := hslugs r (dbGet_mem hr)
  have hslug_eq : generateUniqueSlug db (some r.id) newp r.slug r.name = r.slug :=
    generateUniqueSlug_nonempty db (some r.id) newp hrslug r.name
  have hdb1 : dbPut db { r with parent := newp } = reparent db r.id newp :=
    dbPut_eq_reparent hnd hr newp
  have hnd1 : idsNodup (reparent db r.id newp) := by
    unfold idsNodup
    rw [dbIds_reparent]
    exact hnd
  have hmem1 : ({ r with parent := newp } : Cat) ∈ reparent db r.id newp := by
    unfold reparent
    have := List.mem_map_of_mem
      (fun c => if c.id = r.id then { c with parent := newp } else c) (dbGet_mem hr)
    simpa using this
  have hget1 : dbGet (reparent db r.id newp) r.id = some { r with parent := newp } :=
    mem_dbGet hnd1 hmem1
  have hpp : ∃ pp, parentPathIn (reparent db r.id newp) newp = some pp ∧
      (∀ p, newp = some p → ∃ prow,
        dbGet (reparent db r.id newp) p = some prow ∧ pp = some prow.path ∧
        rank p < rank r.id ∧ p ≠ r.id) ∧
      (newp = none → pp = none) := by
    cases newp with
    | none =>
      refine ⟨none, rfl, ?_, fun _ => rfl⟩
      intro p h
      cases h
    | some p =>
      obtain ⟨⟨pc, hpc, hpcid⟩, hrank⟩ :=
        hwf { r with parent := some p } hmem1 p rfl
      have hrank' : rank p < rank r.id := hrank
      have hgetp : dbGet (reparent db r.id (some p)) p = some pc := by
        have h0 := mem_dbGet hnd1 hpc
        rw [hpcid] at h0
        exact h0
      refine ⟨some pc.path, ?_, ?_, by intro h; cases h⟩
      · show (dbGet (reparent db r.id (some p)) p).map _ = _
        rw [hgetp]
        rfl
      · intro p' hp'
        have hpp' : p' = p := (Option.some.inj hp').symm
        subst hpp'
        refine ⟨pc, hgetp, rfl, hrank', ?_⟩
        intro hpeq
        rw [hpeq] at hrank'
        omega
  obtain ⟨pp, hppEq, hppSome, hppNone⟩ := hpp
  have hpo2 : pathsOnly (reparent db r.id newp)
      (dbSetPath (reparent db r.id newp) r.id (buildPath pp r.slug)) :=
    pathsOnly_setPath (pathsOnly_refl _) r.id _
  have hnd2 : idsNodup (dbSetPath (reparent db r.id newp) r.id
      (buildPath pp r.slug)) := pathsOnly_idsNodup hpo2 hnd1
  have hwf2 : WFRank (dbSetPath (reparent db r.id newp) r.id
      (buildPath pp r.slug)) rank := pathsOnly_WFRank hpo2 hwf
  have hslug2 : ∀ c ∈ dbSetPath (reparent db r.id newp) r.id
      (buildPath pp r.slug), c.slug ≠ "" :=
    pathsOnly_slug_mem hpo2 (slug_mem_reparent _ _ hslugs)
  have hlen2 : (dbSetPath (reparent db r.id newp) r.id
      (buildPath pp r.slug)).length = db.length := by
    rw [pathsOnly_length hpo2]
    exact List.length_map _ _
  have hbound2 : ∀ c ∈ dbSetPath (reparent db r.id newp) r.id
      (buildPath pp r.slug), rank c.id ≤
      (dbSetPath (reparent db r.id newp) r.id (buildPath pp r.slug)).length := by
    intro c hc
    obtain ⟨F, hF⟩ := hpo2
    rw [hF] at hc
    rcases List.mem_map.1 hc with ⟨c₀, hc₀, rfl⟩
    rw [hlen2]
    exact hbound c₀ hc₀
  have hdeep : ∀ x n, DescN (dbSetPath (reparent db r.id newp) r.id
      (buildPath pp r.slug)) r.id x n → n ≤
      (dbSetPath (reparent db r.id newp) r.id (buildPath pp r.slug)).length := by
    intro x n hxn
    obtain ⟨cx, hcx, hcxid⟩ := descN_target hxn
    have h1 := descN_rank hnd2 hwf2 hxn
    have h2 := hbound2 cx hcx
    rw [hcxid] at h2
    omega
  obtain ⟨d1, hfold, hpo1, hframe, hcons⟩ :=
    processSubtree _ rank hnd2 hwf2 hslug2 _ r.id _ (pathsOnly_refl _) hdeep
  refine ⟨d1, ?_, ?_, ?_⟩
  · show categorySave db
      ⟨some r.id, r.name, r.slug, newp, r.path, r.is_active, r.show_in_menu,
        r.sort_order⟩ = some (d1, r.id)
    rw [categorySave_some, hr, Option.map_some', Option.some_bind]
    rw [hslug_eq]
    rw [show ((⟨r.id, r.name, r.slug, newp, r.path, r.is_active, r.show_in_menu,
      r.sort_order⟩ : Cat) = { r with parent := newp }) from rfl]
    rw [hdb1, hppEq, Option.some_bind]
    rw [if_pos (Or.inr (Or.inr (Ne.symm hchanged)))]
    rw [if_pos (Ne.symm hchanged)]
    unfold getDescendants
    rw [hfold, Option.some_bind]
    rfl
  · refine ⟨{ r with parent := newp, path := buildPath pp r.slug }, pp, ?_, ?_, rfl⟩
    · rw [hframe r.id (not_desc_self hnd2 hwf2 r.id)]
      have hget2 := dbGet_dbSetPath_self (buildPath pp r.slug) hget1
      exact hget2
    · show parentPathIn d1 newp = some pp
      cases hnp : newp with
      | none => rw [hppNone hnp]; rfl
      | some p =>
        obtain ⟨prow, hprow, hppv, hrank, hpne⟩ := hppSome p hnp
        have hnotdesc : ¬ Desc (dbSetPath (reparent db r.id newp) r.id
            (buildPath pp r.slug)) r.id p := by
          rintro ⟨n, hn⟩
          have h1 := descN_rank hnd2 hwf2 hn
          have h2 := descN_pos hn
          omega
        have hd1p : dbGet d1 p = some prow := by
          rw [hframe p hnotdesc, dbGet_dbSetPath_ne _ hpne]
          exact hprow
        show (dbGet d1 p).map _ = _
        rw [hd1p, hppv]
        rfl
  · intro d hd
    have hd2 : Desc (dbSetPath (reparent db r.id newp) r.id
        (buildPath pp r.slug)) r.id d := by
      rcases hd with ⟨n, hn⟩
      exact ⟨n, (pathsOnly_descN_iff hpo1).1 hn⟩
    obtain ⟨row, q, qrow, h1, h2, h3, h4, _⟩ := hcons d hd2
    refine ⟨row, some qrow.path, h1, ?_, h4⟩
    rw [h2]
    show (dbGet d1 q).map _ = _
    rw [h3]
    rfl

/-- Evaluation shape of `categorySave` on an instance with no primary key
(INSERT): definitional unfolding of the `do` block. -/
theorem categorySave_none (db : List Cat) (nm sl : String)
    (par : Option Nat) (pa : String) (ia sm : Bool) (so : Nat) :
    categorySave db ⟨none, nm, sl, par, pa, ia, sm, so⟩ =
      (parentPathIn (dbPut db ⟨freshId db, nm,
          generateUniqueSlug db none par sl nm, par, pa, ia, sm, so⟩)
          par).bind (fun pp =>
        if true = true ∨
            pa ≠ buildPath pp (generateUniqueSlug db none par sl nm) ∨
            (none : Option Nat) ≠ par then
          if (none : Option Nat) ≠ par then
            ((getDescendants (dbSetPath (dbPut db ⟨freshId db, nm,
                generateUniqueSlug db none par sl nm, par, pa, ia, sm, so⟩)
                (freshId db) (buildPath pp (generateUniqueSlug db none par sl nm)))
                (freshId db)).foldlM
              (childPathSave (dbSetPath (dbPut db ⟨freshId db, nm,
                generateUniqueSlug db none par sl nm, par, pa, ia, sm, so⟩)
                (freshId db) (buildPath pp (generateUniqueSlug db none par sl nm))))
              (dbSetPath (dbPut db ⟨freshId db, nm,
                generateUniqueSlug db none par sl nm, par, pa, ia, sm, so⟩)
                (freshId db) (buildPath pp (generateUniqueSlug db none par sl nm)))).bind
              (fun db3 => pure (db3, freshId db))
          else pure (dbSetPath (dbPut db ⟨freshId db, nm,
            generateUniqueSlug db none par sl nm, par, pa, ia, sm, so⟩)
            (freshId db) (buildPath pp (generateUniqueSlug db none par sl nm)),
            freshId db)
        else pure (dbPut db ⟨freshId db, nm,
          generateUniqueSlug db none par sl nm, par, pa, ia, sm, so⟩, freshId db)) :=
  rfl

theorem mem_dbPut {db : List Cat} {r x : Cat} (h : x ∈ dbPut db r) :
    x = r ∨ x ∈ db := by
  unfold dbPut at h
  split at h
  · rcases List.mem_map.1 h with ⟨c, hc, rfl⟩
    by_cases hcid : c.id = r.id
    · rw [if_pos hcid]
      exact Or.inl rfl
    · rw [if_neg hcid]
      exact Or.inr hc
  · rcases List.mem_append.1 h with hx | hx
    · exact Or.inr hx
    · exact Or.inl (by simpa using hx)

theorem mem_le_foldr_max (l : List Nat) (x : Nat) (hx : x ∈ l) :
    x ≤ l.foldr max 0 := by
  induction l with
  | nil => cases hx
  | cons a t ih =>
    simp only [List.foldr_cons]
    rcases List.mem_cons.1 hx with rfl | h
    · exact le_max_left _ _
    · exact le_trans (ih h) (le_max_right _ _)

theorem freshId_gt {db : List Cat} {c : Cat} (hc : c ∈ db) :
    c.id < freshId db := by
  unfold freshId
  have h := mem_le_foldr_max (db.map (·.id)) c.id (List.mem_map_of_mem _ hc)
  omega

theorem idsNodup_dbPut {db : List Cat} (hnd : idsNodup db) (r : Cat)
    (h : db.any (fun c => c.id = r.id) = true ∨ r.id = freshId db) :
    idsNodup (dbPut db r) := by
  rcases h with hmem | hfresh
  · unfold idsNodup
    rw [dbIds_dbPut_mem hmem]
    exact hnd
  · unfold dbPut
    by_cases hany : db.any (fun c => c.id = r.id) = true
    · rw [if_pos hany]
      show idsNodup (db.map _)
      unfold idsNodup dbIds
      rw [List.map_map]
      have : (fun x => Cat.id x) ∘ (fun c => if c.id = r.id then r else c) =
          fun c : Cat => c.id := by
        funext c
        by_cases hc : c.id = r.id <;> simp [Function.comp, hc]
      rw [this]
      exact hnd
    · rw [if_neg hany]
      unfold idsNodup dbIds
      rw [List.map_append]
      simp only [List.map_cons, List.map_nil]
      rw [List.nodup_append]
      refine ⟨hnd, List.nodup_singleton _, ?_⟩
      intro a ha hb
      rcases List.mem_map.1 ha with ⟨c, hc, rfl⟩
      have := freshId_gt hc
      simp only [List.mem_singleton] at hb
      rw [hb, hfresh] at this
      omega

/-- Engine application shared by every save that triggers the descendant
rebuild: after the `path` column write on the saved node, folding the
`path` rebuild over the descendants yields a store where the saved node
and all of its descendants have consistent paths. -/
theorem rebuild_consistent (db1 : List Cat) (rank : Nat → Nat) (i : Nat)
    (rowSelf : Cat)
    (hnd1 : idsNodup db1) (hwf1 : WFRank db1 rank)
    (hslug1 : ∀ x ∈ db1, x.slug ≠ "")
    (hbound1 : ∀ x ∈ db1, rank x.id ≤ db1.length)
    (hself : dbGet db1 i = some rowSelf)
    (pp : Option String)
    (hppEq : parentPathIn db1 rowSelf.parent = some pp) :
    ∃ d1, (getDescendants (dbSetPath db1 i (buildPath pp rowSelf.slug)) i).foldlM
        (childPathSave (dbSetPath db1 i (buildPath pp rowSelf.slug)))
        (dbSetPath db1 i (buildPath pp rowSelf.slug)) = some d1 ∧
      pathConsistentAt d1 i ∧ (∀ d, Desc d1 i d → pathConsistentAt d1 d) := by
  have hpo2 : pathsOnly db1 (dbSetPath db1 i (buildPath pp rowSelf.slug)) :=
    pathsOnly_setPath (pathsOnly_refl _) i _
  have hnd2 := pathsOnly_idsNodup hpo2 hnd1
  have hwf2 := pathsOnly_WFRank hpo2 hwf1
  have hslug2 := pathsOnly_slug_mem hpo2 hslug1
  have hlen2 : (dbSetPath db1 i (buildPath pp rowSelf.slug)).length = db1.length :=
    pathsOnly_length hpo2
  have hbound2 : ∀ x ∈ dbSetPath db1 i (buildPath pp rowSelf.slug),
      rank x.id ≤ (dbSetPath db1 i (buildPath pp rowSelf.slug)).length := by
    intro x hx
    obtain ⟨F, hF⟩ := hpo2
    rw [hF] at hx
    rcases List.mem_map.1 hx with ⟨x₀, hx₀, rfl⟩
    rw [hlen2]
    exact hbound1 x₀ hx₀
  have hdeep : ∀ x n, DescN (dbSetPath db1 i (buildPath pp rowSelf.slug)) i x n →
      n ≤ (dbSetPath db1 i (buildPath pp rowSelf.slug)).length := by
    intro x n hxn
    obtain ⟨cx, hcx, hcxid⟩ := descN_target hxn
    have h1 := descN_rank hnd2 hwf2 hxn
    have h2 := hbound2 cx hcx
    rw [hcxid] at h2
    omega
  obtain ⟨d1, hfold, hpo1, hframe, hcons⟩ :=
    processSubtree _ rank hnd2 hwf2 hslug2 _ i _ (pathsOnly_refl _) hdeep
  have hselfid : rowSelf.id = i := dbGet_id hself
  refine ⟨d1, hfold, ?_, ?_⟩
  · refine ⟨{ rowSelf with path := buildPath pp rowSelf.slug }, pp, ?_, ?_, rfl⟩
    · rw [hframe i (not_desc_self hnd2 hwf2 i)]
      exact dbGet_dbSetPath_self _ hself
    · show parentPathIn d1 rowSelf.parent = some pp
      cases hnp : rowSelf.parent with
      | none =>
        rw [hnp] at hppEq
        exact hppEq
      | some p =>
        obtain ⟨⟨pc, hpc, hpcid⟩, hrank⟩ := hwf1 rowSelf (dbGet_mem hself) p hnp
        rw [hselfid] at hrank
        have hgetp : dbGet db1 p = some pc := by
          have h0 := mem_dbGet hnd1 hpc
          rw [hpcid] at h0
          exact h0
        have hpne : p ≠ i := by
          intro h
          rw [h] at hrank
          omega
        have hppv : pp = some pc.path := by
          rw [hnp] at hppEq
          have : (dbGet db1 p).map (fun pc => some pc.path) = some pp := hppEq
          rw [hgetp] at this
          exact (Option.some.inj this).symm
        have hnotdesc : ¬ Desc (dbSetPath db1 i (buildPath pp rowSelf.slug)) i p := by
          rintro ⟨n, hn⟩
          have h1 := descN_rank hnd2 hwf2 hn
          have h2 := descN_pos hn
          omega
        have hd1p : dbGet d1 p = some pc := by
          rw [hframe p hnotdesc, dbGet_dbSetPath_ne _ hpne]
          exact hgetp
        show (dbGet d1 p).map _ = _
        rw [hd1p, hppv]
        rfl
  · intro d hd
    have hd2 : Desc (dbSetPath db1 i (buildPath pp rowSelf.slug)) i d := by
      rcases hd with ⟨n, hn⟩
      exact ⟨n, (pathsOnly_descN_iff hpo1).1 hn⟩
    obtain ⟨row, q, qrow, h1, h2, h3, h4, _⟩ := hcons d hd2
    refine ⟨row, some qrow.path, h1, ?_, h4⟩
    rw [h2]
    show (dbGet d1 q).map _ = _
    rw [h3]
    rfl

/-- Consistency of the saved node itself right after its `path` column
write, when no descendant rebuild runs. -/
theorem setPath_consistent (db1 : List Cat) (rank : Nat → Nat) (i : Nat)
    (rowSelf : Cat) (hnd1 : idsNodup db1) (hwf1 : WFRank db1 rank)
    (hself : dbGet db1 i = some rowSelf) (pp : Option String)
    (hppEq : parentPathIn db1 rowSelf.parent = some pp) :
    pathConsistentAt (dbSetPath db1 i (buildPath pp rowSelf.slug)) i := by
  have hselfid : rowSelf.id = i := dbGet_id hself
  refine ⟨{ rowSelf with path := buildPath pp rowSelf.slug }, pp, ?_, ?_, rfl⟩
  · exact dbGet_dbSetPath_self _ hself
  · show parentPathIn (dbSetPath db1 i (buildPath pp rowSelf.slug))
      rowSelf.parent = some pp
    cases hnp : rowSelf.parent with
    | none =>
      rw [hnp] at hppEq
      exact hppEq
    | some p =>
      obtain ⟨⟨pc, hpc, hpcid⟩, hrank⟩ := hwf1 rowSelf (dbGet_mem hself) p hnp
      rw [hselfid] at hrank
      have hgetp : dbGet db1 p = some pc := by
        have h0 := mem_dbGet hnd1 hpc
        rw [hpcid] at h0
        exact h0
      have hpne : p ≠ i := by
        intro h
        rw [h] at hrank
        omega
      have hppv : pp = some pc.path := by
        rw [hnp] at hppEq
        have h1 : (dbGet db1 p).map (fun pc => some pc.path) = some pp := hppEq
        rw [hgetp] at h1
        exact (Option.some.inj h1).symm
      show (dbGet (dbSetPath db1 i (buildPath pp rowSelf.slug)) p).map _ = _
      rw [dbGet_dbSetPath_ne _ hpne, hgetp, hppv]
      rfl

/-- Resolution of the parent path read by `_build_path` on a well-formed
store: the FK of a stored row always dereferences. -/
theorem parentPathIn_total {db1 : List Cat} {rank : Nat → Nat} {rowSelf : Cat}
    (hnd1 : idsNodup db1) (hwf1 : WFRank db1 rank) (hmem : rowSelf ∈ db1) :
    ∃ pp, parentPathIn db1 rowSelf.parent = some pp := by
  cases hp : rowSelf.parent with
  | none => exact ⟨none, rfl⟩
  | some p =>
    obtain ⟨⟨pc, hpc, hpcid⟩, _⟩ := hwf1 rowSelf hmem p hp
    have hgetp : dbGet db1 p = some pc := by
      have h0 := mem_dbGet hnd1 hpc
      rw [hpcid] at h0
      exact h0
    refine ⟨some pc.path, ?_⟩
    show (dbGet db1 p).map _ = _
    rw [hgetp]
    rfl

/-- General consistency of `Category.save`: on a well-formed store every
successful save leaves the saved node with a consistent materialized
path. -/
theorem categorySave_consistent (db : List Cat) (rank : Nat → Nat) (c : CatObj)
    (hnd : idsNodup db)
    (hex : ∀ i, c.pk = some i → ∃ r, dbGet db i = some r)
    (hslugs1 : ∀ x ∈ dbPut db (savedRow db c), x.slug ≠ "")
    (hwf1 : WFRank (dbPut db (savedRow db c)) rank)
    (hbound1 : ∀ x ∈ dbPut db (savedRow db c),
      rank x.id ≤ (dbPut db (savedRow db c)).length) :
    ∃ db', categorySave db c = some (db', (savedRow db c).id) ∧
      pathConsistentAt db' ((savedRow db c).id) := by
  obtain ⟨pk0, nm, sl, par, pa, ia, sm, so⟩ := c
  cases pk0 with
  | some i =>
    obtain ⟨r, hr⟩ := hex i rfl
    have hrid : r.id = i := dbGet_id hr
    have hany : db.any (fun x => x.id =
        (savedRow db ⟨some i, nm, sl, par, pa, ia, sm, so⟩).id) = true :=
      List.any_eq_true.2 ⟨r, dbGet_mem hr, by simp [savedRow, hrid]⟩
    have hnd1 : idsNodup (dbPut db (savedRow db ⟨some i, nm, sl, par, pa, ia, sm, so⟩)) :=
      idsNodup_dbPut hnd _ (Or.inl hany)
    have hself : dbGet (dbPut db (savedRow db ⟨some i, nm, sl, par, pa, ia, sm, so⟩)) i =
        some (savedRow db ⟨some i, nm, sl, par, pa, ia, sm, so⟩) :=
      dbGet_dbPut_self db _
    obtain ⟨pp, hppEq⟩ := parentPathIn_total hnd1 hwf1 (dbGet_mem hself)
    have hppEq' : parentPathIn (dbPut db ⟨i, nm,
        generateUniqueSlug db (some i) par sl nm, par, pa, ia, sm, so⟩) par =
        some pp := hppEq
    rw [show (savedRow db ⟨some i, nm, sl, par, pa, ia, sm, so⟩).id = i from rfl]
    rw [categorySave_some, hr, Option.map_some', Option.some_bind]
    rw [hppEq', Option.some_bind]
    by_cases hcond : ((false = true) ∨
        pa ≠ buildPath pp (generateUniqueSlug db (some i) par sl nm) ∨
        r.parent ≠ par)
    · rw [if_pos hcond]
      by_cases hpar : r.parent ≠ par
      · rw [if_pos hpar]
        obtain ⟨d1, hfold, hconsi, _⟩ :=
          rebuild_consistent (dbPut db (savedRow db ⟨some i, nm, sl, par, pa, ia, sm, so⟩))
            rank i _ hnd1 hwf1 hslugs1 hbound1 hself pp hppEq
        have hfold' : (getDescendants (dbSetPath (dbPut db ⟨i, nm,
            generateUniqueSlug db (some i) par sl nm, par, pa, ia, sm, so⟩) i
            (buildPath pp (generateUniqueSlug db (some i) par sl nm))) i).foldlM
            (childPathSave (dbSetPath (dbPut db ⟨i, nm,
            generateUniqueSlug db (some i) par sl nm, par, pa, ia, sm, so⟩) i
            (buildPath pp (generateUniqueSlug db (some i) par sl nm))))
            (dbSetPath (dbPut db ⟨i, nm,
            generateUniqueSlug db (some i) par sl nm, par, pa, ia, sm, so⟩) i
            (buildPath pp (generateUniqueSlug db (some i) par sl nm))) = some d1 := hfold
        rw [hfold', Option.some_bind]
        exact ⟨d1, rfl, hconsi⟩
      · rw [if_neg hpar]
        refine ⟨_, rfl, ?_⟩
        exact setPath_consistent _ rank i _ hnd1 hwf1 hself pp hppEq
    · rw [if_neg hcond]
      refine ⟨_, rfl, ?_⟩
      push_neg at hcond
      exact ⟨savedRow db ⟨some i, nm, sl, par, pa, ia, sm, so⟩, pp, hself, hppEq,
        hcond.2.1⟩
  | none =>
    have hnd1 : idsNodup (dbPut db (savedRow db ⟨none, nm, sl, par, pa, ia, sm, so⟩)) :=
      idsNodup_dbPut hnd _ (Or.inr rfl)
    have hself : dbGet (dbPut db (savedRow db ⟨none, nm, sl, par, pa, ia, sm, so⟩))
        (freshId db) = some (savedRow db ⟨none, nm, sl, par, pa, ia, sm, so⟩) :=
      dbGet_dbPut_self db _
    obtain ⟨pp, hppEq⟩ := parentPathIn_total hnd1 hwf1 (dbGet_mem hself)
    have hppEq' : parentPathIn (dbPut db ⟨freshId db, nm,
        generateUniqueSlug db none par sl nm, par, pa, ia, sm, so⟩) par =
        some pp := hppEq
    rw [show (savedRow db ⟨none, nm, sl, par, pa, ia, sm, so⟩).id = freshId db from rfl]
    rw [categorySave_none]
    rw [hppEq', Option.some_bind]
    rw [if_pos (Or.inl rfl)]
    by_cases hpar : (none : Option Nat) ≠ par
    · rw [if_pos hpar]
      obtain ⟨d1, hfold, hconsi, _⟩ :=
        rebuild_consistent (dbPut db (savedRow db ⟨none, nm, sl, par, pa, ia, sm, so⟩))
          rank (freshId db) _ hnd1 hwf1 hslugs1 hbound1 hself pp hppEq
      have hfold' : (getDescendants (dbSetPath (dbPut db ⟨freshId db, nm,
          generateUniqueSlug db none par sl nm, par, pa, ia, sm, so⟩) (freshId db)
          (buildPath pp (generateUniqueSlug db none par sl nm))) (freshId db)).foldlM
          (childPathSave (dbSetPath (dbPut db ⟨freshId db, nm,
          generateUniqueSlug db none par sl nm, par, pa, ia, sm, so⟩) (freshId db)
          (buildPath pp (generateUniqueSlug db none par sl nm))))
          (dbSetPath (dbPut db ⟨freshId db, nm,
          generateUniqueSlug db none par sl nm, par, pa, ia, sm, so⟩) (freshId db)
          (buildPath pp (generateUniqueSlug db none par sl nm))) = some d1 := hfold
      rw [hfold', Option.some_bind]
      exact ⟨d1, rfl, hconsi⟩
    · rw [if_neg hpar]
      refine ⟨_, rfl, ?_⟩
      exact setPath_consistent _ rank (freshId db) _ hnd1 hwf1 hself pp hppEq

/-- Renaming does not move a category: saving a loaded row with only the
`name` changed writes the full row but neither the slug nor the path. -/
theorem categorySave_rename (db : List Cat) (r : Cat) (newName : String)
    (hnd : idsNodup db)
    (hr : dbGet db r.id = some r)
    (hslug : r.slug ≠ "")
    (hnotself : r.parent ≠ some r.id)
    (hcons : pathConsistentAt db r.id) :
    categorySave db { loadCat r with name := newName } =
      some (dbPut db { r with name := newName }, r.id) ∧
    ∃ row, dbGet (dbPut db { r with name := newName }) r.id = some row ∧
      row.slug = r.slug ∧ row.path = r.path := by
  obtain ⟨row0, pp, hrow0, hppEq0, hpath0⟩ := hcons
  have hrow0r : row0 = r := by
    rw [hr] at hrow0
    exact (Option.some.inj hrow0).symm
  rw [hrow0r] at hppEq0 hpath0
  have hslug_eq : generateUniqueSlug db (some r.id) r.parent r.slug newName =
      r.slug := generateUniqueSlug_nonempty db _ _ hslug newName
  have hppEq1 : parentPathIn (dbPut db ⟨r.id, newName, r.slug, r.parent, r.path,
      r.is_active, r.show_in_menu, r.sort_order⟩) r.parent = some pp := by
    cases hp : r.parent with
    | none =>
      rw [hp] at hppEq0
      exact hppEq0
    | some p =>
      have hpne : p ≠ r.id := by
        intro h
        rw [h] at hp
        exact hnotself hp
    -- the parent row is untouched by the full-row write of the saved node
      rw [hp] at hppEq0
      show (dbGet (dbPut db ⟨r.id, newName, r.slug, some p, r.path,
        r.is_active, r.show_in_menu, r.sort_order⟩) p).map _ = _
      rw [dbGet_dbPut_ne (⟨r.id, newName, r.slug, some p, r.path,
        r.is_active, r.show_in_menu, r.sort_order⟩ : Cat) (by exact hpne)]
      exact hppEq0
  constructor
  · show categorySave db ⟨some r.id, newName, r.slug, r.parent, r.path,
      r.is_active, r.show_in_menu, r.sort_order⟩ = _
    rw [categorySave_some, hr, Option.map_some', Option.some_bind]
    rw [hslug_eq, hppEq1, Option.some_bind]
    have hc : ¬ ((false = true) ∨ r.path ≠ buildPath pp r.slug ∨
        r.parent ≠ r.parent) := by
      push_neg
      exact ⟨by simp, hpath0, rfl⟩
    rw [if_neg hc]
    rfl
  · refine ⟨{ r with name := newName }, ?_, rfl, rfl⟩
    exact dbGet_dbPut_self db _

theorem decDigits_lt {n : Nat} (h : n < 10) :
    decDigits n = [Nat.digitChar n] := by
  rw [decDigits, dif_pos h]

theorem decDigits_ge {n : Nat} (h : ¬ n < 10) :
    decDigits n = decDigits (n / 10) ++ [Nat.digitChar (n % 10)] := by
  rw [decDigits, dif_neg h]

theorem decDigits_length_pos (n : Nat) : 1 ≤ (decDigits n).length := by
  by_cases h : n < 10
  · rw [decDigits_lt h]
    simp
  · rw [decDigits_ge h]
    simp

theorem toDigitsCore_eq_decDigits :
    ∀ (fuel n : Nat) (ds : List Char), 0 < fuel → n < 10 ^ fuel →
      Nat.toDigitsCore 10 fuel n ds = decDigits n ++ ds := by
  intro fuel
  induction fuel with
  | zero => omega
  | succ f ih =>
    intro n ds _ hn
    show (let d := Nat.digitChar (n % 10);
      let n' := n / 10;
      if n' = 0 then d :: ds else Nat.toDigitsCore 10 f n' (d :: ds)) = _
    by_cases hz : n / 10 = 0
    · have hlt : n < 10 := by
        rcases Nat.lt_or_ge n 10 with h | h
        · exact h
        · exfalso
          have : 1 ≤ n / 10 := Nat.le_div_iff_mul_le (by omega) |>.2 (by omega)
          omega
      rw [decDigits_lt hlt]
      simp only [hz, if_pos]
      rw [Nat.mod_eq_of_lt hlt]
      rfl
    · have hge : 10 ≤ n := by
        rcases Nat.lt_or_ge n 10 with h | h
        · exfalso
          exact hz (Nat.div_eq_of_lt h)
        · exact h
      have hfpos : 0 < f := by
        rcases Nat.eq_zero_or_pos f with rfl | h
        · simp at hn
          omega
        · exact h
      have hdivlt : n / 10 < 10 ^ f := by
        rw [Nat.div_lt_iff_lt_mul (by omega)]
        calc n < 10 ^ (f + 1) := hn
        _ = 10 ^ f * 10 := by rw [pow_succ]
      simp only [if_neg hz]
      rw [ih (n / 10) (Nat.digitChar (n % 10) :: ds) hfpos hdivlt]
      rw [decDigits_ge (by omega : ¬ n < 10)]
      simp

theorem repr_eq_decDigits (n : Nat) : Nat.repr n = ⟨decDigits n⟩ := by
  show (Nat.toDigits 10 n).asString = _
  unfold Nat.toDigits
  rw [toDigitsCore_eq_decDigits (n + 1) n [] (by omega)
    (lt_of_lt_of_le (Nat.lt_pow_self (by omega) n)
      (Nat.pow_le_pow_right (by omega) (by omega)))]
  rw [List.append_nil]
  rfl

theorem digitChar_inj_lt : ∀ a < 10, ∀ b < 10,
    Nat.digitChar a = Nat.digitChar b → a = b := by decide

theorem decDigits_inj : ∀ a b : Nat, decDigits a = decDigits b → a = b := by
  intro a
  induction a using Nat.strong_induction_on with
  | _ a ih =>
    intro b h
    by_cases ha : a < 10 <;> by_cases hb : b < 10
    · rw [decDigits_lt ha, decDigits_lt hb] at h
      have := List.head_eq_of_cons_eq h
      exact digitChar_inj_lt a ha b hb this
    · exfalso
      rw [decDigits_lt ha, decDigits_ge hb] at h
      have hlen := congrArg List.length h
      have hpos := decDigits_length_pos (b / 10)
      simp only [List.length_cons, List.length_nil, List.length_append] at hlen
      omega
    · exfalso
      rw [decDigits_ge ha, decDigits_lt hb] at h
      have hlen := congrArg List.length h
      have hpos := decDigits_length_pos (a / 10)
      simp only [List.length_cons, List.length_nil, List.length_append] at hlen
      omega
    · rw [decDigits_ge ha, decDigits_ge hb] at h
      obtain ⟨h1, h2⟩ := List.append_inj' h (by simp)
      have hmod : a % 10 = b % 10 := by
        have := List.head_eq_of_cons_eq h2
        exact digitChar_inj_lt _ (Nat.mod_lt a (by omega)) _
          (Nat.mod_lt b (by omega)) this
      have hdiv : a / 10 = b / 10 :=
        ih (a / 10) (Nat.div_lt_self (by omega) (by omega)) (b / 10) h1
      have ha' := Nat.div_add_mod a 10
      have hb' := Nat.div_add_mod b 10
      omega

theorem nat_repr_inj {a b : Nat} (h : Nat.repr a = Nat.repr b) : a = b := by
  rw [repr_eq_decDigits, repr_eq_decDigits] at h
  exact decDigits_inj a b (congrArg String.data h)

theorem candSlug_inj (base : String) {k₁ k₂ : Nat}
    (h : candSlug base k₁ = candSlug base k₂) : k₁ = k₂ := by
  unfold candSlug at h
  have hd := congrArg String.data h
  rw [String.data_append, String.data_append, String.data_append,
    String.data_append] at hd
  have := List.append_cancel_left hd
  exact nat_repr_inj (String.ext this)

/-! ### Termination and least-counter characterization of the slug loops -/

/-- Pigeonhole: among the candidates `base-1 … base-(n+1)`, where `n` bounds
the number of taken slugs, one is free. -/
theorem exists_free_cand (taken : String → Bool) (slugs : List String)
    (h : ∀ s, taken s = true → s ∈ slugs) (base : String) :
    ∃ k, 1 ≤ k ∧ k ≤ slugs.length + 1 ∧ taken (candSlug base k) = false := by
  by_contra hc
  push_neg at hc
  have hc' : ∀ k, 1 ≤ k → k ≤ slugs.length + 1 →
      taken (candSlug base k) = true := by
    intro k h1 h2
    have := hc k h1 h2
    revert this
    cases taken (candSlug base k) <;> simp
  have hinj : Set.InjOn (candSlug base)
      (Finset.Icc 1 (slugs.length + 1) : Finset Nat) :=
    fun x _ y _ hxy => candSlug_inj base hxy
  have hsub : (Finset.Icc 1 (slugs.length + 1)).image (candSlug base) ⊆
      slugs.toFinset := by
    intro s hs
    rcases Finset.mem_image.1 hs with ⟨k, hk, rfl⟩
    have hk' := Finset.mem_Icc.1 hk
    exact List.mem_toFinset.2 (h _ (hc' k hk'.1 hk'.2))
  have hcard := Finset.card_le_card hsub
  rw [Finset.card_image_of_injOn hinj, Nat.card_Icc] at hcard
  have := List.toFinset_card_le slugs
  omega

/-- The fueled loop returns the candidate of the least counter whose slug is
free, provided one exists within the fuel. -/
theorem findSlugAux_spec (db : List Cat) (selfPk parent : Option Nat)
    (base : String) :
    ∀ (fuel c : Nat),
      (∃ k, c ≤ k ∧ k < c + fuel ∧
        slugTaken db selfPk parent (candSlug base k) = false) →
      ∃ k, c ≤ k ∧ findSlugAux db selfPk parent base fuel c = candSlug base k ∧
        slugTaken db selfPk parent (candSlug base k) = false ∧
        ∀ j, c ≤ j → j < k → slugTaken db selfPk parent (candSlug base j) = true := by
  intro fuel
  induction fuel with
  | zero =>
    rintro c ⟨k, h1, h2, _⟩
    omega
  | succ f ih =>
    rintro c ⟨k, hk1, hk2, hk3⟩
    by_cases htk : slugTaken db selfPk parent (candSlug base c) = true
    · have hkc : k ≠ c := by
        intro h
        rw [h] at hk3
        rw [htk] at hk3
        cases hk3
      obtain ⟨k', h1, heq, hfree, hall⟩ := ih (c + 1)
        ⟨k, by omega, by omega, hk3⟩
      refine ⟨k', by omega, ?_, hfree, ?_⟩
      · show (if slugTaken db selfPk parent (candSlug base c) = true then
          findSlugAux db selfPk parent base f (c + 1) else candSlug base c) = _
        rw [if_pos htk]
        exact heq
      · intro j hj1 hj2
        by_cases hjc : j = c
        · rw [hjc]
          exact htk
        · exact hall j (by omega) hj2
    · have hfalse : slugTaken db selfPk parent (candSlug base c) = false := by
        revert htk
        cases slugTaken db selfPk parent (candSlug base c) <;> simp
      refine ⟨c, le_refl c, ?_, hfalse, ?_⟩
      · show (if slugTaken db selfPk parent (candSlug base c) = true then
          findSlugAux db selfPk parent base f (c + 1) else candSlug base c) = _
        rw [if_neg htk]
      · intro j h1 h2
        omega

theorem slugTaken_mem {db : List Cat} {selfPk parent : Option Nat} {s : String}
    (h : slugTaken db selfPk parent s = true) : s ∈ db.map (·.slug) := by
  unfold slugTaken at h
  rcases List.any_eq_true.1 h with ⟨c, hc, hcp⟩
  simp only [decide_eq_true_eq] at hcp
  rw [← hcp.1]
  exact List.mem_map_of_mem _ hc

/-- Characterization of `_generate_unique_slug` on an instance with an empty
slug: `slugify(name)` when free among the siblings, else `slugify(name)-k`
for the least positive counter `k` making it free; the result is always
free. -/
theorem generateUniqueSlug_empty_spec (db : List Cat)
    (selfPk parent : Option Nat) (name : String) :
    (slugTaken db selfPk parent (slugify name) = false →
      generateUniqueSlug db selfPk parent "" name = slugify name) ∧
    (slugTaken db selfPk parent (slugify name) = true →
      ∃ k, 1 ≤ k ∧
        generateUniqueSlug db selfPk parent "" name = candSlug (slugify name) k ∧
        slugTaken db selfPk parent (candSlug (slugify name) k) = false ∧
        ∀ j, 1 ≤ j → j < k →
          slugTaken db selfPk parent (candSlug (slugify name) j) = true) ∧
    slugTaken db selfPk parent
      (generateUniqueSlug db selfPk parent "" name) = false := by
  have hmaplen : (db.map (·.slug)).length = db.length := List.length_map _ _
  have hgen : generateUniqueSlug db selfPk parent "" name =
      (if slugTaken db selfPk parent (slugify name) then
        findSlugAux db selfPk parent (slugify name) (db.length + 1) 1
      else slugify name) := rfl
  by_cases ht : slugTaken db selfPk parent (slugify name) = true
  · obtain ⟨k0, hk01, hk02, hk03⟩ :=
      exists_free_cand (slugTaken db selfPk parent) (db.map (·.slug))
        (fun s hs => slugTaken_mem hs) (slugify name)
    obtain ⟨k, h1, heq, hfree, hall⟩ :=
      findSlugAux_spec db selfPk parent (slugify name) (db.length + 1) 1
        ⟨k0, hk01, by omega, hk03⟩
    refine ⟨?_, ?_, ?_⟩
    · intro hfalse
      rw [ht] at hfalse
      cases hfalse
    · intro _
      exact ⟨k, h1, by rw [hgen, if_pos ht]; exact heq, hfree, hall⟩
    · rw [hgen, if_pos ht, heq]
      exact hfree
  · have hf : slugTaken db selfPk parent (slugify name) = false := by
      revert ht
      cases slugTaken db selfPk parent (slugify name) <;> simp
    refine ⟨?_, ?_, ?_⟩
    · intro _
      rw [hgen, if_neg ht]
    · intro h
      rw [h] at hf
      cases hf
    · rw [hgen, if_neg ht]
      exact hf

theorem brandFindSlugAux_spec (db : List BrandR) (selfPk : Option Nat)
    (base : String) :
    ∀ (fuel c : Nat),
      (∃ k, c ≤ k ∧ k < c + fuel ∧
        brandSlugTaken db selfPk (candSlug base k) = false) →
      ∃ k, c ≤ k ∧ brandFindSlugAux db selfPk base fuel c = candSlug base k ∧
        brandSlugTaken db selfPk (candSlug base k) = false ∧
        ∀ j, c ≤ j → j < k → brandSlugTaken db selfPk (candSlug base j) = true := by
  intro fuel
  induction fuel with
  | zero =>
    rintro c ⟨k, h1, h2, _⟩
    omega
  | succ f ih =>
    rintro c ⟨k, hk1, hk2, hk3⟩
    by_cases htk : brandSlugTaken db selfPk (candSlug base c) = true
    · have hkc : k ≠ c := by
        intro h
        rw [h, htk] at hk3
        cases hk3
      obtain ⟨k', h1, heq, hfree, hall⟩ := ih (c + 1) ⟨k, by omega, by omega, hk3⟩
      refine ⟨k', by omega, ?_, hfree, ?_⟩
      · show (if brandSlugTaken db selfPk (candSlug base c) = true then
          brandFindSlugAux db selfPk base f (c + 1) else candSlug base c) = _
        rw [if_pos htk]
        exact heq
      · intro j hj1 hj2
        by_cases hjc : j = c
        · rw [hjc]
          exact htk
        · exact hall j (by omega) hj2
    · have hfalse : brandSlugTaken db selfPk (candSlug base c) = false := by
        revert htk
        cases brandSlugTaken db selfPk (candSlug base c) <;> simp
      refine ⟨c, le_refl c, ?_, hfalse, ?_⟩
      · show (if brandSlugTaken db selfPk (candSlug base c) = true then
          brandFindSlugAux db selfPk base f (c + 1) else candSlug base c) = _
        rw [if_neg htk]
      · intro j h1 h2
        omega

theorem brandSlugTaken_mem {db : List BrandR} {selfPk : Option Nat} {s : String}
    (h : brandSlugTaken db selfPk s = true) : s ∈ db.map (·.slug) := by
  unfold brandSlugTaken at h
  rcases List.any_eq_true.1 h with ⟨b, hb, hbp⟩
  simp only [decide_eq_true_eq] at hbp
  rw [← hbp.1]
  exact List.mem_map_of_mem _ hb

/-- Characterization of the inline slug generation in `Brand.save` on an
empty slug: uniqueness is checked among all brands. -/
theorem brandGenSlug_empty_spec (db : List BrandR) (selfPk : Option Nat)
    (name : String) :
    (brandSlugTaken db selfPk (slugify name) = false →
      brandGenSlug db selfPk "" name = slugify name) ∧
    (brandSlugTaken db selfPk (slugify name) = true →
      ∃ k, 1 ≤ k ∧
        brandGenSlug db selfPk "" name = candSlug (slugify name) k ∧
        brandSlugTaken db selfPk (candSlug (slugify name) k) = false ∧
        ∀ j, 1 ≤ j → j < k →
          brandSlugTaken db selfPk (candSlug (slugify name) j) = true) ∧
    brandSlugTaken db selfPk (brandGenSlug db selfPk "" name) = false := by
  have hmaplen : (db.map (·.slug)).length = db.length := List.length_map _ _
  have hgen : brandGenSlug db selfPk "" name =
      (if brandSlugTaken db selfPk (slugify name) then
        brandFindSlugAux db selfPk (slugify name) (db.length + 1) 1
      else slugify name) := rfl
  by_cases ht : brandSlugTaken db selfPk (slugify name) = true
  · obtain ⟨k0, hk01, hk02, hk03⟩ :=
      exists_free_cand (brandSlugTaken db selfPk) (db.map (·.slug))
        (fun s hs => brandSlugTaken_mem hs) (slugify name)
    obtain ⟨k, h1, heq, hfree, hall⟩ :=
      brandFindSlugAux_spec db selfPk (slugify name) (db.length + 1) 1
        ⟨k0, hk01, by omega, hk03⟩
    refine ⟨?_, ?_, ?_⟩
    · intro hfalse
      rw [ht] at hfalse
      cases hfalse
    · intro _
      exact ⟨k, h1, by rw [hgen, if_pos ht]; exact heq, hfree, hall⟩
    · rw [hgen, if_pos ht, heq]
      exact hfree
  · have hf : brandSlugTaken db selfPk (slugify name) = false := by
      revert ht
      cases brandSlugTaken db selfPk (slugify name) <;> simp
    refine ⟨?_, ?_, ?_⟩
    · intro _
      rw [hgen, if_neg ht]
    · intro h
      rw [h] at hf
      cases hf
    · rw [hgen, if_neg ht]
      exact hf

/-! ### Toggle endpoints: the nested save persists only the named column -/

theorem setCatField_id (c : Cat) (f : CatBoolField) (v : Bool) :
    (setCatField c f v).id = c.id := by cases f <;> rfl

theorem dbGet_dbSetCatField (db : List Cat) (i : Nat) (f : CatBoolField)
    (v : Bool) (j : Nat) :
    dbGet (dbSetCatField db i f v) j =
      (dbGet db j).map (fun c => if c.id = i then setCatField c f v else c) := by
  unfold dbSetCatField
  exact dbGet_map_preserveId db _
    (fun c => by by_cases h : c.id = i <;> simp [h, setCatField_id]) j

theorem dbGet_dbSetCatField_ne {db : List Cat} {i j : Nat} (f : CatBoolField)
    (v : Bool) (h : j ≠ i) :
    dbGet (dbSetCatField db i f v) j = dbGet db j := by
  rw [dbGet_dbSetCatField]
  cases hc : dbGet db j with
  | none => rfl
  | some c =>
    have : c.id = j := dbGet_id hc
    simp [this, h]

theorem setCatField_parent (c : Cat) (f : CatBoolField) (v : Bool) :
    (setCatField c f v).parent = c.parent := by cases f <;> rfl

theorem setCatField_slug (c : Cat) (f : CatBoolField) (v : Bool) :
    (setCatField c f v).slug = c.slug := by cases f <;> rfl

theorem setCatField_name (c : Cat) (f : CatBoolField) (v : Bool) :
    (setCatField c f v).name = c.name := by cases f <;> rfl

theorem setCatField_path (c : Cat) (f : CatBoolField) (v : Bool) :
    (setCatField c f v).path = c.path := by cases f <;> rfl

/-- On a path-consistent store the overridden `Category.save` called with
`update_fields=[field]` writes exactly the named boolean column: the
recomputed path agrees with the stored one, so the conditional `path`
write is skipped. -/
theorem categorySaveField_spec (db : List Cat) (i : Nat) (c : Cat)
    (f : CatBoolField) (v : Bool)
    (hc : dbGet db i = some c)
    (hslug : c.slug ≠ "")
    (hnotself : c.parent ≠ some c.id)
    (hcons : pathConsistentAt db i) :
    categorySaveField db i f v = some (dbSetCatField db i f v) := by
  obtain ⟨row0, pp0, hrow0, hppEq0, hpath0⟩ := hcons
  have hrow0c : row0 = c := by
    rw [hc] at hrow0
    exact (Option.some.inj hrow0).symm
  rw [hrow0c] at hppEq0 hpath0
  have hcid : c.id = i := dbGet_id hc
  unfold categorySaveField
  rw [hc]
  show (parentPathIn (dbSetCatField db i f v) (setCatField c f v).parent).bind _ = _
  simp only [setCatField_parent, setCatField_slug, setCatField_name,
    setCatField_path]
  rw [generateUniqueSlug_nonempty db (some i) c.parent hslug]
  cases hp : c.parent with
  | none =>
    show (Option.some (none : Option String)).bind _ = _
    rw [Option.some_bind]
    have hppv : pp0 = none := by
      rw [hp] at hppEq0
      have h0 : (some (none : Option String)) = some pp0 := hppEq0
      exact (Option.some.inj h0).symm
    have hpathc : c.path = buildPath none c.slug := by
      rw [hppv] at hpath0
      exact hpath0
    have hne : ¬ (c.path ≠ buildPath none c.slug) := by
      push_neg
      exact hpathc
    simp only [if_neg hne]
    rfl
  | some p =>
    have hpne : p ≠ i := by
      intro h
      rw [← hcid] at h
      rw [h] at hp
      exact hnotself hp
    rw [hp] at hppEq0
    have hppm : (dbGet db p).map (fun pc => some pc.path) = some pp0 := hppEq0
    cases hgp : dbGet db p with
    | none =>
      rw [hgp] at hppm
      cases hppm
    | some prow =>
      rw [hgp] at hppm
      have hppv : pp0 = some prow.path := by
        simp only [Option.map_some'] at hppm
        exact (Option.some.inj hppm).symm
      show ((dbGet (dbSetCatField db i f v) p).map
        (fun pc => some pc.path)).bind _ = _
      rw [dbGet_dbSetCatField_ne f v hpne, hgp, Option.map_some',
        Option.some_bind]
      have hpathc : c.path = buildPath (some prow.path) c.slug := by
        rw [hppv] at hpath0
        exact hpath0
      have hne : ¬ (c.path ≠ buildPath (some prow.path) c.slug) := by
        push_neg
        exact hpathc
      simp only [if_neg hne]
      rfl

theorem brandSaveField_spec {db : List BrandR} {i : Nat} {b : BrandR}
    (h : brandGet db i = some b) (f : BrandBoolField) (v : Bool) :
    brandSaveField db i f v = some (dbSetBrandField db i f v) := by
  unfold brandSaveField
  rw [h]
  rfl

/-! ## The claims -/

/-- C9: toggling is an involution with a frame: for every object and
boolean field, applying `toggle_field` twice restores the object, a single
application replaces the named field by its negation, and every field other
than the toggled one is unchanged; for both `Category` and `Brand`
objects. -/
theorem claim_C9 (c : Cat) (f f' : CatBoolField) (hf : f' ≠ f)
    (b : BrandR) (g g' : BrandBoolField) (hg : g' ≠ g) :
    toggleFieldCat (toggleFieldCat c f) f = c ∧
    getCatField (toggleFieldCat c f) f = !getCatField c f ∧
    getCatField (toggleFieldCat c f) f' = getCatField c f' ∧
    (toggleFieldCat c f).id = c.id ∧
    (toggleFieldCat c f).name = c.name ∧
    (toggleFieldCat c f).slug = c.slug ∧
    (toggleFieldCat c f).parent = c.parent ∧
    (toggleFieldCat c f).path = c.path ∧
    (toggleFieldCat c f).sort_order = c.sort_order ∧
    toggleFieldBrand (toggleFieldBrand b g) g = b ∧
    getBrandField (toggleFieldBrand b g) g = !getBrandField b g ∧
    getBrandField (toggleFieldBrand b g) g' = getBrandField b g' ∧
    (toggleFieldBrand b g).id = b.id ∧
    (toggleFieldBrand b g).name = b.name ∧
    (toggleFieldBrand b g).slug = b.slug ∧
    (toggleFieldBrand b g).country = b.country ∧
    (toggleFieldBrand b g).priority = b.priority := by
  cases f <;> cases f' <;> cases g <;> cases g' <;>
    simp_all [toggleFieldCat, toggleFieldBrand, getCatField, getBrandField,
      setCatField, setBrandField, Bool.not_not]

theorem claim_C9_witness :
    toggleFieldCat (toggleFieldCat ⟨1, "A", "a", none, "a", true, true, 0⟩
      CatBoolField.is_active) CatBoolField.is_active =
      ⟨1, "A", "a", none, "a", true, true, 0⟩ ∧
    getCatField (toggleFieldCat ⟨1, "A", "a", none, "a", true, true, 0⟩
      CatBoolField.is_active) CatBoolField.show_in_menu = true :=
  have h := claim_C9 ⟨1, "A", "a", none, "a", true, true, 0⟩
    CatBoolField.is_active CatBoolField.show_in_menu (by decide)
    ⟨1, "B", "b", "", true, false, 0⟩ BrandBoolField.is_active
    BrandBoolField.is_featured (by decide)
  ⟨h.1, h.2.2.1⟩

/-- C6: the register endpoint creates the user and answers 201 with the
user's email, username and first_name plus a success message exactly on
valid input; on invalid input the serializer raises and no user is
created. -/
theorem claim_C6 {I : Type} (ser : RegSerializer I) (users : List User)
    (inp : I) :
    (ser.valid users inp = true →
      registerCreate ser users inp = (users ++ [ser.build inp],
        RegResp.created (ser.build inp).email (ser.build inp).username
          (ser.build inp).first_name "User created successfully" 201)) ∧
    (ser.valid users inp = false →
      registerCreate ser users inp = (users, RegResp.validationError)) := by
  constructor
  · intro h
    unfold registerCreate
    rw [if_pos h]
  · intro h
    unfold registerCreate
    rw [if_neg (by rw [h]; simp)]

theorem claim_C6_witness :
    registerCreate ⟨fun _ _ => true, fun _ => ⟨"a@b.c", "alice", "Alice"⟩⟩
      ([] : List User) () =
      ([⟨"a@b.c", "alice", "Alice"⟩],
        RegResp.created "a@b.c" "alice" "Alice" "User created successfully" 201) ∧
    registerCreate ⟨fun _ _ => false, fun _ => ⟨"a@b.c", "alice", "Alice"⟩⟩
      ([] : List User) () = ([], RegResp.validationError) :=
  ⟨(claim_C6 ⟨fun _ _ => true, fun _ => ⟨"a@b.c", "alice", "Alice"⟩⟩ [] ()).1 rfl,
   (claim_C6 ⟨fun _ _ => false, fun _ => ⟨"a@b.c", "alice", "Alice"⟩⟩ [] ()).2 rfl⟩

/-- C4: soft delete of a category: with no id the endpoint answers bad
request; on the id of an existing category it answers success=false and
leaves the store unchanged when the category has child categories or
linked products, and otherwise persists exactly `is_active := false` and
answers success=true. -/
theorem claim_C4 (s : Store) (i : Nat) (c : Cat)
    (hc : dbGet s.cats i = some c)
    (hslug : c.slug ≠ "")
    (hnotself : c.parent ≠ some c.id)
    (hcons : pathConsistentAt s.cats i) :
    softDeleteCategory s none = (s, Resp.badRequest "Missing category id") ∧
    (hasChildren s.cats c.id = true →
      softDeleteCategory s (some i) = (s, Resp.jsonFailure "Category has subcategories")) ∧
    (hasChildren s.cats c.id = false → hasProductsCat s c.id = true →
      softDeleteCategory s (some i) = (s, Resp.jsonFailure "Products are linked")) ∧
    (hasChildren s.cats c.id = false → hasProductsCat s c.id = false →
      softDeleteCategory s (some i) =
        ({ s with cats := dbSetCatField s.cats i CatBoolField.is_active false },
          Resp.jsonSuccess none)) := by
  refine ⟨rfl, ?_, ?_, ?_⟩
  · intro hch
    simp only [softDeleteCategory, hc]
    rw [if_pos hch]
  · intro hch hpr
    simp only [softDeleteCategory, hc]
    rw [if_neg (by rw [hch]; simp), if_pos hpr]
  · intro hch hpr
    simp only [softDeleteCategory, hc]
    rw [if_neg (by rw [hch]; simp), if_neg (by rw [hpr]; simp)]
    rw [categorySaveField_spec s.cats i c CatBoolField.is_active false hc hslug
      hnotself hcons]

theorem claim_C4_witness :
    softDeleteCategory ⟨[⟨1, "A", "a", none, "a", true, true, 0⟩], [], [], false⟩
      (some 1) =
      (⟨[⟨1, "A", "a", none, "a", false, true, 0⟩], [], [], false⟩,
        Resp.jsonSuccess none) :=
  have h := claim_C4 ⟨[⟨1, "A", "a", none, "a", true, true, 0⟩], [], [], false⟩
    1 ⟨1, "A", "a", none, "a", true, true, 0⟩ rfl (by decide) (by decide)
    ⟨⟨1, "A", "a", none, "a", true, true, 0⟩, none, rfl, rfl, rfl⟩
  (h.2.2.2 rfl rfl).trans (by decide)

/-- C5: each toggle endpoint answers bad request when no id is posted, and
on the id of an existing object persists exactly the negation of its named
boolean field and answers success together with the new value. -/
theorem claim_C5 (s : Store) (i : Nat) (c : Cat) (j : Nat) (b : BrandR)
    (hc : dbGet s.cats i = some c)
    (hslug : c.slug ≠ "")
    (hnotself : c.parent ≠ some c.id)
    (hcons : pathConsistentAt s.cats i)
    (hb : brandGet s.brands j = some b) :
    toggleCategoryStatus s none = (s, Resp.badRequest "Missing category id") ∧
    toggleCategoryMenu s none = (s, Resp.badRequest "Missing category id") ∧
    toggleBrandStatus s none = (s, Resp.badRequest "Missing brand id") ∧
    toggleBrandFeatured s none = (s, Resp.badRequest "Missing brand id") ∧
    toggleCategoryStatus s (some i) =
      ({ s with cats := dbSetCatField s.cats i CatBoolField.is_active (!c.is_active) },
        Resp.jsonSuccess (some ("is_active", !c.is_active))) ∧
    toggleCategoryMenu s (some i) =
      ({ s with cats := dbSetCatField s.cats i CatBoolField.show_in_menu (!c.show_in_menu) },
        Resp.jsonSuccess (some ("show_in_menu", !c.show_in_menu))) ∧
    toggleBrandStatus s (some j) =
      ({ s with brands := dbSetBrandField s.brands j BrandBoolField.is_active (!b.is_active) },
        Resp.jsonSuccess (some ("is_active", !b.is_active))) ∧
    toggleBrandFeatured s (some j) =
      ({ s with brands := dbSetBrandField s.brands j BrandBoolField.is_featured (!b.is_featured) },
        Resp.jsonSuccess (some ("is_featured", !b.is_featured))) := by
  refine ⟨rfl, rfl, rfl, rfl, ?_, ?_, ?_, ?_⟩
  · simp only [toggleCategoryStatus, hc]
    rw [show (toggleFieldCat c CatBoolField.is_active).is_active = !c.is_active
      from rfl]
    rw [categorySaveField_spec s.cats i c CatBoolField.is_active (!c.is_active)
      hc hslug hnotself hcons]
  · simp only [toggleCategoryMenu, hc]
    rw [show (toggleFieldCat c CatBoolField.show_in_menu).show_in_menu =
      !c.show_in_menu from rfl]
    rw [categorySaveField_spec s.cats i c CatBoolField.show_in_menu
      (!c.show_in_menu) hc hslug hnotself hcons]
  · simp only [toggleBrandStatus, hb]
    rw [show (toggleFieldBrand b BrandBoolField.is_active).is_active =
      !b.is_active from rfl]
    rw [brandSaveField_spec hb BrandBoolField.is_active (!b.is_active)]
  · simp only [toggleBrandFeatured, hb]
    rw [show (toggleFieldBrand b BrandBoolField.is_featured).is_featured =
      !b.is_featured from rfl]
    rw [brandSaveField_spec hb BrandBoolField.is_featured (!b.is_featured)]

theorem claim_C5_witness :
    toggleCategoryStatus ⟨[⟨1, "A", "a", none, "a", true, true, 0⟩],
        [⟨2, "B", "b", "", true, false, 5⟩], [], false⟩ (some 1) =
      (⟨[⟨1, "A", "a", none, "a", false, true, 0⟩],
        [⟨2, "B", "b", "", true, false, 5⟩], [], false⟩,
        Resp.jsonSuccess (some ("is_active", false))) ∧
    toggleBrandFeatured ⟨[⟨1, "A", "a", none, "a", true, true, 0⟩],
        [⟨2, "B", "b", "", true, false, 5⟩], [], false⟩ (some 2) =
      (⟨[⟨1, "A", "a", none, "a", true, true, 0⟩],
        [⟨2, "B", "b", "", true, true, 5⟩], [], false⟩,
        Resp.jsonSuccess (some ("is_featured", true))) :=
  have h := claim_C5 ⟨[⟨1, "A", "a", none, "a", true, true, 0⟩],
    [⟨2, "B", "b", "", true, false, 5⟩], [], false⟩ 1
    ⟨1, "A", "a", none, "a", true, true, 0⟩ 2 ⟨2, "B", "b", "", true, false, 5⟩
    rfl (by decide) (by decide)
    ⟨⟨1, "A", "a", none, "a", true, true, 0⟩, none, rfl, rfl, rfl⟩ rfl
  ⟨(h.2.2.2.2.1).trans (by decide), (h.2.2.2.2.2.2.2).trans (by decide)⟩

/-- C8: the permanent delete views remove a category or brand only when it
is inactive and free of dependencies (child categories for categories,
linked products for both); in every other case they answer an error
redirect and the store is unchanged. -/
theorem claim_C8 (s : Store) (pathParam : String) (c : Cat) (pk : Nat)
    (b : BrandR)
    (hc : s.cats.find? (fun x => x.path = pathParam) = some c)
    (hb : brandGet s.brands pk = some b) :
    (c.is_active = true → categoryDelete s pathParam =
      (s, DelResp.errorRedirect "Deactivate category before permanent deletion.")) ∧
    (c.is_active = false →
      (hasChildren s.cats c.id || hasProductsCat s c.id) = true →
      categoryDelete s pathParam =
        (s, DelResp.errorRedirect "Cannot delete category with dependencies.")) ∧
    (c.is_active = false →
      (hasChildren s.cats c.id || hasProductsCat s c.id) = false →
      categoryDelete s pathParam =
        ({ s with cats := s.cats.filter (fun x => x.id ≠ c.id) }, DelResp.deleted)) ∧
    (b.is_active = true → brandDelete s pk =
      (s, DelResp.errorRedirect "Deactivate brand before permanent deletion.")) ∧
    (b.is_active = false → hasProductsBrand s b.id = true →
      brandDelete s pk =
        (s, DelResp.errorRedirect "Cannot delete brand with linked products.")) ∧
    (b.is_active = false → hasProductsBrand s b.id = false →
      brandDelete s pk =
        ({ s with brands := s.brands.filter (fun x => x.id ≠ b.id) },
          DelResp.deleted)) := by
  refine ⟨?_, ?_, ?_, ?_, ?_, ?_⟩
  · intro ha
    simp only [categoryDelete, hc]
    rw [if_pos ha]
  · intro ha hdep
    simp only [categoryDelete, hc]
    rw [if_neg (by rw [ha]; simp), if_pos hdep]
  · intro ha hdep
    simp only [categoryDelete, hc]
    rw [if_neg (by rw [ha]; simp), if_neg (by rw [hdep]; simp)]
  · intro ha
    simp only [brandDelete, hb]
    rw [if_pos ha]
  · intro ha hdep
    simp only [brandDelete, hb]
    rw [if_neg (by rw [ha]; simp), if_pos hdep]
  · intro ha hdep
    simp only [brandDelete, hb]
    rw [if_neg (by rw [ha]; simp), if_neg (by rw [hdep]; simp)]

theorem claim_C8_witness :
    categoryDelete ⟨[⟨1, "A", "a", none, "a", false, true, 0⟩],
        [⟨2, "B", "b", "", true, false, 0⟩], [], false⟩ "a" =
      (⟨[], [⟨2, "B", "b", "", true, false, 0⟩], [], false⟩, DelResp.deleted) ∧
    brandDelete ⟨[⟨1, "A", "a", none, "a", false, true, 0⟩],
        [⟨2, "B", "b", "", true, false, 0⟩], [], false⟩ 2 =
      (⟨[⟨1, "A", "a", none, "a", false, true, 0⟩],
        [⟨2, "B", "b", "", true, false, 0⟩], [], false⟩,
        DelResp.errorRedirect "Deactivate brand before permanent deletion.") :=
  have h1 := claim_C8 ⟨[⟨1, "A", "a", none, "a", false, true, 0⟩],
    [⟨2, "B", "b", "", true, false, 0⟩], [], false⟩
    "a" ⟨1, "A", "a", none, "a", false, true, 0⟩ 2 ⟨2, "B", "b", "", true, false, 0⟩
    (by decide) (by decide)
  ⟨(h1.2.2.1 rfl (by decide)).trans (by decide), h1.2.2.2.1 rfl⟩

/-- C7: the category list is the rows passing the search filter, the
`is_active` filter (active-only when the parameter is absent, by value when
it is "0" or "1") and the `show_in_menu` filter, ordered by the `path`
column. -/
theorem claim_C7 (db : List Cat) (p : ListParams) :
    List.Pairwise (fun a b : Cat => a.path ≤ b.path) (categoryQueryset db p) ∧
    ∀ c : Cat, c ∈ categoryQueryset db p ↔ c ∈ db ∧ matchesParams p c := by
  obtain ⟨ps, pa, pm⟩ := p
  constructor
  · have hsorted := @List.sorted_mergeSort Cat
      (fun a b : Cat => decide (a.path ≤ b.path))
      (fun a b c hab hbc => by
        simp only [decide_eq_true_eq] at hab hbc ⊢
        exact le_trans hab hbc)
      (fun a b => by
        rcases le_total a.path b.path with h | h <;> simp [h])
      (let qs := db
        let qs := if searchApplies ps then
            qs.filter (fun (c : Cat) => icontains c.name (ps.getD ""))
          else qs
        let qs : List Cat := match pa with
          | none => qs.filter (fun (c : Cat) => c.is_active = true)
          | some v => if v = "0" ∨ v = "1" then
              qs.filter (fun (c : Cat) => c.is_active = decide (v = "1")) else qs
        match pm with
          | none => qs
          | some v => if v = "0" ∨ v = "1" then
              qs.filter (fun (c : Cat) => c.show_in_menu = decide (v = "1")) else qs)
    have hp : ∀ l : List Cat,
        List.Pairwise (fun a b : Cat => decide (a.path ≤ b.path) = true) l →
        List.Pairwise (fun a b : Cat => a.path ≤ b.path) l := by
      intro l hl
      exact hl.imp (fun h => by simpa using h)
    exact hp _ hsorted
  · intro c
    show c ∈ List.mergeSort _ _ ↔ _
    rw [List.mem_mergeSort]
    unfold matchesParams
    cases pa <;> cases pm <;>
      · repeat' split
        all_goals simp_all [List.mem_filter]
        all_goals tauto

theorem claim_C7_witness :
    List.Pairwise (fun a b : Cat => a.path ≤ b.path)
      (categoryQueryset [⟨1, "Zeta", "z", none, "z", true, true, 0⟩,
        ⟨2, "Alpha", "a", none, "a", true, true, 0⟩,
        ⟨3, "Mid", "m", none, "m", false, true, 0⟩] ⟨none, none, none⟩) ∧
    ((⟨3, "Mid", "m", none, "m", false, true, 0⟩ : Cat) ∈
      categoryQueryset [⟨1, "Zeta", "z", none, "z", true, true, 0⟩,
        ⟨2, "Alpha", "a", none, "a", true, true, 0⟩,
        ⟨3, "Mid", "m", none, "m", false, true, 0⟩] ⟨none, none, none⟩ ↔
      (⟨3, "Mid", "m", none, "m", false, true, 0⟩ : Cat) ∈
        ([⟨1, "Zeta", "z", none, "z", true, true, 0⟩,
          ⟨2, "Alpha", "a", none, "a", true, true, 0⟩,
          ⟨3, "Mid", "m", none, "m", false, true, 0⟩] : List Cat) ∧
        matchesParams ⟨none, none, none⟩ ⟨3, "Mid", "m", none, "m", false, true, 0⟩) :=
  have h := claim_C7 [⟨1, "Zeta", "z", none, "z", true, true, 0⟩,
    ⟨2, "Alpha", "a", none, "a", true, true, 0⟩,
    ⟨3, "Mid", "m", none, "m", false, true, 0⟩] ⟨none, none, none⟩
  ⟨h.1, h.2 _⟩

/-- C1: after every successful `Category.save` on a well-formed store, the
row written for the saved category has `path` equal to the parent's path
followed by `/` and the category's slug when a parent exists (any leading
`/` stripped), and equal to the slug alone when there is no parent. -/
theorem claim_C1 (db : List Cat) (rank : Nat → Nat) (c : CatObj)
    (hnd : idsNodup db)
    (hex : ∀ i, c.pk = some i → ∃ r, dbGet db i = some r)
    (hslugs1 : ∀ x ∈ dbPut db (savedRow db c), x.slug ≠ "")
    (hwf1 : WFRank (dbPut db (savedRow db c)) rank)
    (hbound1 : ∀ x ∈ dbPut db (savedRow db c),
      rank x.id ≤ (dbPut db (savedRow db c)).length) :
    ∃ db' row, categorySave db c = some (db', (savedRow db c).id) ∧
      dbGet db' (savedRow db c).id = some row ∧
      (∀ p, row.parent = some p → ∃ prow, dbGet db' p = some prow ∧
        row.path = lstripSlash (prow.path ++ "/" ++ row.slug)) ∧
      (row.parent = none → row.path = row.slug) := by
  obtain ⟨db', hsave, hcons⟩ :=
    categorySave_consistent db rank c hnd hex hslugs1 hwf1 hbound1
  obtain ⟨row, pp, hget, hpp, hpath⟩ := hcons
  refine ⟨db', row, hsave, hget, ?_, ?_⟩
  · intro p hp
    rw [hp] at hpp
    have hpp2 : Option.map (fun pc => some pc.path) (dbGet db' p) = some pp := hpp
    cases hg : dbGet db' p with
    | none =>
      rw [hg] at hpp2
      cases hpp2
    | some prow =>
      rw [hg] at hpp2
      rw [Option.map_some'] at hpp2
      injection hpp2 with hpp'
      refine ⟨prow, rfl, ?_⟩
      rw [hpath, ← hpp']
      rfl
  · intro hp
    rw [hp] at hpp
    have hpp2 : (some none : Option (Option String)) = some pp := hpp
    injection hpp2 with hpp'
    rw [hpath, ← hpp']
    rfl

theorem claim_C1_witness :
    ∃ db' row,
      categorySave [] ⟨none, "Electronics", "", none, "", true, true, 0⟩ =
        some (db', (savedRow [] ⟨none, "Electronics", "", none, "", true, true, 0⟩).id) ∧
      dbGet db' (savedRow [] ⟨none, "Electronics", "", none, "", true, true, 0⟩).id =
        some row ∧
      (∀ p, row.parent = some p → ∃ prow, dbGet db' p = some prow ∧
        row.path = lstripSlash (prow.path ++ "/" ++ row.slug)) ∧
      (row.parent = none → row.path = row.slug) :=
  claim_C1 [] (fun _ => 0) ⟨none, "Electronics", "", none, "", true, true, 0⟩
    (by unfold idsNodup dbIds; decide)
    (fun _ h => Option.noConfusion h)
    (by decide)
    (by
      intro x hx p hp
      rcases List.mem_singleton.1 hx with rfl
      exact Option.noConfusion hp)
    (fun _ _ => Nat.zero_le _)

/-- C2: for every existing category whose parent FK is changed and then
saved on a well-formed store, the save succeeds and afterwards the
materialized path of that category and of every one of its descendants is
consistent with the new ancestry (each node's stored path equals its
parent's stored path joined with `/` and its own slug). -/
theorem claim_C2 (db : List Cat) (rank : Nat → Nat) (r : Cat) (newp : Option Nat)
    (hnd : idsNodup db)
    (hslugs : ∀ c ∈ db, c.slug ≠ "")
    (hr : dbGet db r.id = some r)
    (hchanged : newp ≠ r.parent)
    (hwf : WFRank (reparent db r.id newp) rank)
    (hbound : ∀ c ∈ reparent db r.id newp, rank c.id ≤ db.length) :
    ∃ db', categorySave db { loadCat r with parent := newp } = some (db', r.id) ∧
      pathConsistentAt db' r.id ∧
      ∀ d, Desc db' r.id d → pathConsistentAt db' d :=
  categorySave_reparent db rank r newp hnd hslugs hr hchanged hwf hbound

theorem claim_C2_witness :
    ∃ db', categorySave [⟨1, "A", "a", none, "a", true, true, 0⟩,
        ⟨2, "B", "b", none, "b", true, true, 0⟩]
        { loadCat ⟨2, "B", "b", none, "b", true, true, 0⟩ with parent := some 1 } =
        some (db', (⟨2, "B", "b", none, "b", true, true, 0⟩ : Cat).id) ∧
      pathConsistentAt db' (⟨2, "B", "b", none, "b", true, true, 0⟩ : Cat).id ∧
      ∀ d, Desc db' (⟨2, "B", "b", none, "b", true, true, 0⟩ : Cat).id d →
        pathConsistentAt db' d :=
  claim_C2 [⟨1, "A", "a", none, "a", true, true, 0⟩,
      ⟨2, "B", "b", none, "b", true, true, 0⟩]
    (fun n => n) ⟨2, "B", "b", none, "b", true, true, 0⟩ (some 1)
    (by unfold idsNodup dbIds; decide)
    (by decide)
    (by decide)
    (by decide)
    (by
      have he : reparent [⟨1, "A", "a", none, "a", true, true, 0⟩,
          ⟨2, "B", "b", none, "b", true, true, 0⟩] 2 (some 1) =
          [⟨1, "A", "a", none, "a", true, true, 0⟩,
           ⟨2, "B", "b", some 1, "b", true, true, 0⟩] := rfl
      rw [show ((⟨2, "B", "b", none, "b", true, true, 0⟩ : Cat).id) = 2 from rfl, he]
      intro x hx p hp
      rcases List.mem_cons.1 hx with rfl | hx'
      · exact Option.noConfusion hp
      · rcases List.mem_singleton.1 hx' with rfl
        injection hp with hp'
        subst hp'
        exact ⟨⟨⟨1, "A", "a", none, "a", true, true, 0⟩, by decide, rfl⟩, by decide⟩)
    (by decide)

/-- C3: the row written by `Category.save` keeps a non-empty slug unchanged;
with an empty slug it receives `slugify(name)` when that is free among
same-parent categories (excluding itself), and otherwise
`slugify(name) ++ "-" ++ k` for the least positive `k` that is free; either
way the resulting slug is not taken by any other same-parent category.
`Brand.save` follows the same scheme with uniqueness over all brands. -/
theorem claim_C3 (db : List Cat) (c : CatObj) (bdb : List BrandR) (b : BrandObj) :
    (c.slug = "" →
      (slugTaken db c.pk c.parent (slugify c.name) = false →
        (savedRow db c).slug = slugify c.name) ∧
      (slugTaken db c.pk c.parent (slugify c.name) = true →
        ∃ k, 1 ≤ k ∧ (savedRow db c).slug = candSlug (slugify c.name) k ∧
          slugTaken db c.pk c.parent (candSlug (slugify c.name) k) = false ∧
          ∀ j, 1 ≤ j → j < k →
            slugTaken db c.pk c.parent (candSlug (slugify c.name) j) = true) ∧
      slugTaken db c.pk c.parent (savedRow db c).slug = false) ∧
    (c.slug ≠ "" → (savedRow db c).slug = c.slug) ∧
    (b.slug = "" →
      (brandSlugTaken bdb b.pk (slugify b.name) = false →
        brandGenSlug bdb b.pk b.slug b.name = slugify b.name) ∧
      (brandSlugTaken bdb b.pk (slugify b.name) = true →
        ∃ k, 1 ≤ k ∧
          brandGenSlug bdb b.pk b.slug b.name = candSlug (slugify b.name) k ∧
          brandSlugTaken bdb b.pk (candSlug (slugify b.name) k) = false ∧
          ∀ j, 1 ≤ j → j < k →
            brandSlugTaken bdb b.pk (candSlug (slugify b.name) j) = true) ∧
      brandSlugTaken bdb b.pk (brandGenSlug bdb b.pk b.slug b.name) = false) ∧
    (b.slug ≠ "" → brandGenSlug bdb b.pk b.slug b.name = b.slug) := by
  have hsr : (savedRow db c).slug =
      generateUniqueSlug db c.pk c.parent c.slug c.name := rfl
  refine ⟨?_, ?_, ?_, ?_⟩
  · intro h
    rw [hsr, h]
    exact generateUniqueSlug_empty_spec db c.pk c.parent c.name
  · intro h
    rw [hsr]
    exact generateUniqueSlug_nonempty db c.pk c.parent h c.name
  · intro h
    rw [h]
    exact brandGenSlug_empty_spec bdb b.pk b.name
  · intro h
    simp [brandGenSlug, h]

theorem claim_C3_witness :
    (∃ k, 1 ≤ k ∧
      (savedRow [⟨1, "Phone", "phone", none, "phone", true, true, 0⟩]
        ⟨none, "Phone", "", none, "", true, true, 0⟩).slug =
        candSlug (slugify "Phone") k ∧
      slugTaken [⟨1, "Phone", "phone", none, "phone", true, true, 0⟩] none none
        (candSlug (slugify "Phone") k) = false ∧
      ∀ j, 1 ≤ j → j < k →
        slugTaken [⟨1, "Phone", "phone", none, "phone", true, true, 0⟩] none none
          (candSlug (slugify "Phone") j) = true) ∧
    slugTaken [⟨1, "Phone", "phone", none, "phone", true, true, 0⟩] none none
      (savedRow [⟨1, "Phone", "phone", none, "phone", true, true, 0⟩]
        ⟨none, "Phone", "", none, "", true, true, 0⟩).slug = false ∧
    (savedRow [⟨1, "Phone", "phone", none, "phone", true, true, 0⟩]
      ⟨none, "Tablet", "kept", none, "", true, true, 0⟩).slug = "kept" ∧
    brandGenSlug [] none "" "Nike" = slugify "Nike" ∧
    brandGenSlug [] none "puma" "Nike" = "puma" :=
  have h1 := claim_C3 [⟨1, "Phone", "phone", none, "phone", true, true, 0⟩]
    ⟨none, "Phone", "", none, "", true, true, 0⟩ [] ⟨none, "Nike", "", "", true, false, 0⟩
  have h2 := claim_C3 [⟨1, "Phone", "phone", none, "phone", true, true, 0⟩]
    ⟨none, "Tablet", "kept", none, "", true, true, 0⟩ []
    ⟨none, "Nike", "puma", "", true, false, 0⟩
  ⟨(h1.1 rfl).2.1 (by decide), (h1.1 rfl).2.2,
    h2.2.1 (by decide), (h1.2.2.1 rfl).1 (by decide), h2.2.2.2 (by decide)⟩

/-- C10: renaming does not move a category: for an existing row with a
non-empty slug and a consistent path, saving it with only the `name`
changed succeeds and the stored row keeps both its slug and its
materialized path unchanged. -/
theorem claim_C10 (db : List Cat) (r : Cat) (newName : String)
    (hnd : idsNodup db)
    (hr : dbGet db r.id = some r)
    (hslug : r.slug ≠ "")
    (hnotself : r.parent ≠ some r.id)
    (hcons : pathConsistentAt db r.id) :
    categorySave db { loadCat r with name := newName } =
      some (dbPut db { r with name := newName }, r.id) ∧
    ∃ row, dbGet (dbPut db { r with name := newName }) r.id = some row ∧
      row.slug = r.slug ∧ row.path = r.path :=
  categorySave_rename db r newName hnd hr hslug hnotself hcons

theorem claim_C10_witness :
    categorySave [⟨1, "Shoes", "shoes", none, "shoes", true, true, 0⟩]
      { loadCat ⟨1, "Shoes", "shoes", none, "shoes", true, true, 0⟩ with
        name := "Footwear" } =
      some (dbPut [⟨1, "Shoes", "shoes", none, "shoes", true, true, 0⟩]
        { (⟨1, "Shoes", "shoes", none, "shoes", true, true, 0⟩ : Cat) with
          name := "Footwear" },
        (⟨1, "Shoes", "shoes", none, "shoes", true, true, 0⟩ : Cat).id) ∧
    ∃ row, dbGet (dbPut [⟨1, "Shoes", "shoes", none, "shoes", true, true, 0⟩]
        { (⟨1, "Shoes", "shoes", none, "shoes", true, true, 0⟩ : Cat) with
          name := "Footwear" })
        (⟨1, "Shoes", "shoes", none, "shoes", true, true, 0⟩ : Cat).id = some row ∧
      row.slug = (⟨1, "Shoes", "shoes", none, "shoes", true, true, 0⟩ : Cat).slug ∧
      row.path = (⟨1, "Shoes", "shoes", none, "shoes", true, true, 0⟩ : Cat).path :=
  claim_C10 [⟨1, "Shoes", "shoes", none, "shoes", true, true, 0⟩]
    ⟨1, "Shoes", "shoes", none, "shoes", true, true, 0⟩ "Footwear"
    (by unfold idsNodup dbIds; decide)
    (by decide)
    (by decide)
    (by decide)
    ⟨⟨1, "Shoes", "shoes", none, "shoes", true, true, 0⟩, none, by decide, rfl, rfl⟩
